import Mathlib

/-!
# Mascot Maze: a verification development

Shallow embedding of `src/mascot_maze.cc` (one test case of `main`) and proofs about it.

Conventions of the embedding

* A `vector<ll>` is a `List Int`; `v[i]` is `rd v i` and `v[i] = x` is `wr v i x`.
* Node ids are stored after the decrement `L[i]--` of the source, as natural numbers,
  so a well-formed instance has every entry of `L` and `R` in `[0, n)`.
* The boolean tables `SEEN` and `BAD` hold `ll` values in the source (`false = 0`,
  `true = 1`); they are lists of integers here and a test `if(v)` is `v ≠ 0`.
* `assert(e)` is modelled by the result `none` when `e` is false.
* The `while(!Q.empty())` loop takes a fuel argument that bounds the number of pops; the
  driver supplies `7 * n`, and running out of fuel is the result `none`.
-/

namespace MascotMaze

/-! ## Data model -/

/-- One test case after parsing: the node count and the two successor tables, 0-indexed. -/
structure Instance where
  n : Nat
  L : List Nat
  R : List Nat
deriving Repr, DecidableEq

/-- Well-formed input: `n ≥ 1`, both tables have `n` entries, every entry is a node. -/
def WellFormed (I : Instance) : Prop :=
  1 ≤ I.n ∧ I.L.length = I.n ∧ I.R.length = I.n ∧ (∀ x ∈ I.L, x < I.n) ∧ (∀ x ∈ I.R, x < I.n)

instance (I : Instance) : Decidable (WellFormed I) := by
  unfold WellFormed; infer_instance

/-- Read `v[i]` of a `vector<ll>`. -/
def rd (v : List Int) (i : Nat) : Int := v.getD i 0

/-- Write `v[i] = x` of a `vector<ll>`. -/
def wr (v : List Int) (i : Nat) (x : Int) : List Int := v.set i x

/-- Read `L[i]` or `R[i]` of a successor table. -/
def nd (v : List Nat) (i : Nat) : Nat := v.getD i 0

/-- Read `B[x][c]` of a `vector<vector<ll>>`. -/
def rd2 (B : List (List Int)) (x c : Nat) : Int := rd (B.getD x []) c

/-- Write `B[x][c] = v` of a `vector<vector<ll>>`. -/
def wr2 (B : List (List Int)) (x c : Nat) (v : Int) : List (List Int) :=
  B.set x (wr (B.getD x []) c v)

/-! ## Neighborhood Builder (lines 34-45) -/

/-- The six `push_back`s of one iteration of the `P2` loop. -/
def p2row (L R : List Nat) (i : Nat) : List Nat :=
  [nd L i, nd L (nd L i), nd R (nd L i), nd R i, nd L (nd R i), nd R (nd R i)]

/-- The table `P2`, one row per node. -/
def buildP2 (n : Nat) (L R : List Nat) : List (List Nat) :=
  (List.range n).map (p2row L R)

/-- The row `P2[x]`. -/
def nbrs (P2 : List (List Nat)) (x : Nat) : List Nat := P2.getD x []

/-! ## Feasibility check (lines 47-57) -/

/-- The inner loop `for(ll x : P2[i]) if(x==i) ok=false;`. -/
def checkRow (i : Nat) (ok : Bool) (row : List Nat) : Bool :=
  row.foldl (fun ok x => if x = i then false else ok) ok

/-- The flag `ok` after the double loop of lines 49-53. -/
def feasible (n : Nat) (P2 : List (List Nat)) : Bool :=
  (List.range n).foldl (fun ok i => checkRow i ok (nbrs P2 i)) true

/-! ## Degeneracy Orderer (lines 59-95) -/

/-- The array `IN` after the counting loop of lines 60-65. -/
def initIN (n : Nat) (P2 : List (List Nat)) : List Int :=
  (List.range n).foldl
    (fun IN i => (nbrs P2 i).foldl (fun IN x => wr IN x (rd IN x + 1)) IN)
    (List.replicate n 0)

/-- The queue `Q` after the seeding loop of lines 74-78 (front of the queue first). -/
def seedQ (n : Nat) (IN : List Int) : List Nat :=
  (List.range n).foldl (fun Q i => if rd IN i ≤ 6 then Q ++ [i] else Q) []

/-- The variables of the peeling loop. `Q` lists the queue front first, `O` lists the
deque front first. -/
structure OState where
  IN : List Int
  Q : List Nat
  SEEN : List Int
  O : List Nat
deriving Repr, DecidableEq

/-- One iteration of the loop of lines 86-94: `IN[y]--; if(IN[y]<=6) Q.push(y);`. -/
def relax (s : OState) (y : Nat) : OState :=
  let IN1 := wr s.IN y (rd s.IN y - 1)
  if rd IN1 y ≤ 6 then { s with IN := IN1, Q := s.Q ++ [y] } else { s with IN := IN1 }

/-- The body of the `while` loop for a popped node `x` that is not yet `SEEN`
(lines 83-94); `none` when `assert(IN[x] <= 6)` fails. -/
def finalize (P2 : List (List Nat)) (s : OState) (x : Nat) : Option OState :=
  if rd s.IN x ≤ 6 then
    some ((nbrs P2 x).foldl relax { s with SEEN := wr s.SEEN x 1, O := x :: s.O })
  else none

/-- The loop `while(!Q.empty())` of lines 80-95, at most `fuel` pops. -/
def peel (P2 : List (List Nat)) : Nat → OState → Option OState
  | 0, s => if s.Q = [] then some s else none
  | fuel + 1, s =>
    match s.Q with
    | [] => some s
    | x :: Q1 =>
      if rd s.SEEN x ≠ 0 then peel P2 fuel { s with Q := Q1 }
      else
        match finalize P2 { s with Q := Q1 } x with
        | none => none
        | some s1 => peel P2 fuel s1

/-- The state when the peeling loop is entered (lines 60-79). -/
def initO (n : Nat) (P2 : List (List Nat)) : OState :=
  { IN := initIN n P2, Q := seedQ n (initIN n P2), SEEN := List.replicate n 0, O := [] }

/-- The Orderer: the deque `O` when the work queue is empty. -/
def orderer (n : Nat) (P2 : List (List Nat)) : Option (List Nat) :=
  (peel P2 (7 * n) (initO n P2)).map OState.O

/-! ## Greedy Colorer (lines 97-120) -/

/-- The variables of the coloring loop. -/
structure CState where
  BAD : List (List Int)
  COLOR : List Int
deriving Repr, DecidableEq

/-- Lines 104-108: forbid for `x` the colors of its already colored children. -/
def markFromChildren (P2 : List (List Nat)) (COLOR : List Int) (x : Nat)
    (BAD : List (List Int)) : List (List Int) :=
  (nbrs P2 x).foldl
    (fun B y => if 0 ≤ rd COLOR y then wr2 B x (rd COLOR y).toNat 1 else B) BAD

/-- Lines 110-114: the scan `for c in 0..12: if(!BAD[x][c]) COLOR[x] = c;`. -/
def pickColor (BAD : List (List Int)) (x : Nat) (COLOR : List Int) : List Int :=
  (List.range 13).foldl (fun C c => if rd2 BAD x c = 0 then wr C x (c : Int) else C) COLOR

/-- Lines 117-119: forbid the color of `x` for each of its children. -/
def markChildren (P2 : List (List Nat)) (x : Nat) (cx : Int)
    (BAD : List (List Int)) : List (List Int) :=
  (nbrs P2 x).foldl (fun B y => wr2 B y cx.toNat 1) BAD

/-- The table `BAD` at the moment the colors are scanned for `x` (after line 108). -/
def badAtScan (P2 : List (List Nat)) (s : CState) (x : Nat) : List (List Int) :=
  markFromChildren P2 s.COLOR x s.BAD

/-- One iteration of the loop over `O` (lines 102-120); `none` when
`assert(COLOR[x] >= 0)` fails. -/
def colorStep (P2 : List (List Nat)) (s : CState) (x : Nat) : Option CState :=
  let BAD1 := badAtScan P2 s x
  let COLOR1 := pickColor BAD1 x s.COLOR
  if 0 ≤ rd COLOR1 x then
    some { BAD := markChildren P2 x (rd COLOR1 x) BAD1, COLOR := COLOR1 }
  else none

/-- The loop `for(ll x : O)` from a given state. -/
def colorLoop (P2 : List (List Nat)) : List Nat → CState → Option CState
  | [], s => some s
  | x :: xs, s =>
    match colorStep P2 s x with
    | none => none
    | some s1 => colorLoop P2 xs s1

/-- The state when the coloring loop is entered (lines 100-101). -/
def initC (n : Nat) : CState :=
  { BAD := List.replicate n (List.replicate 13 0), COLOR := List.replicate n (-1) }

/-- The Colorer: the array `COLOR` after the loop over `O`. -/
def colorer (n : Nat) (P2 : List (List Nat)) (O : List Nat) : Option (List Int) :=
  (colorLoop P2 O (initC n)).map CState.COLOR

/-! ## Output (lines 54-57 and 122-128) and the solver -/

/-- The palette `colors` of line 123. -/
def colors : List Char := "ACDEHIJKMORST".toList

/-- The characters printed by the loop of lines 125-127. -/
def render (n : Nat) (COLOR : List Int) : List Char :=
  (List.range n).map (fun i => colors.getD (rd COLOR i).toNat ' ')

/-- What is printed after `Case #k: `. -/
inductive Answer where
  | impossible : Answer
  | coloring : List Char → Answer
deriving Repr, DecidableEq

/-- The final `COLOR` array of a case that passes the feasibility check: Orderer, then
Colorer. -/
def finalColor (I : Instance) : Option (List Int) :=
  match orderer I.n (buildP2 I.n I.L I.R) with
  | none => none
  | some O => colorer I.n (buildP2 I.n I.L I.R) O

/-- One test case of `main`; `none` when an assertion fails or the fuel runs out. -/
def solve (I : Instance) : Option Answer :=
  if feasible I.n (buildP2 I.n I.L I.R) then
    (finalColor I).map (fun COLOR => Answer.coloring (render I.n COLOR))
  else some Answer.impossible

/-- The sequence `ProximitySet(i)` of the specification. -/
def ProximitySet (I : Instance) (i : Nat) : List Nat := p2row I.L I.R i

/-- No node occurs in its own `ProximitySet` (the feasibility precondition). -/
def NoSelf (I : Instance) : Prop := ∀ i, i < I.n → i ∉ ProximitySet I i

instance (I : Instance) : Decidable (NoSelf I) := by
  unfold NoSelf; infer_instance

/-- A valid coloring of the specification: every node gets a color of `[0, 13)` that
differs from the color of every member of its `ProximitySet`. -/
def ValidColoring (I : Instance) (col : Nat → Nat) : Prop :=
  (∀ i, i < I.n → col i < 13) ∧ ∀ i, i < I.n → ∀ y ∈ ProximitySet I i, col i ≠ col y

/-- There is an `L`-edge or an `R`-edge from `a` to `b`. -/
def Edge (I : Instance) (a b : Nat) : Prop := b = nd I.L a ∨ b = nd I.R a

/-- The node `y` is reached from `i` by a path of exactly one or exactly two edges. -/
def Reach12 (I : Instance) (i y : Nat) : Prop :=
  Edge I i y ∨ ∃ m, Edge I i m ∧ Edge I m y

/-! ## Sample instances -/

/-- Five nodes on a ring: `L(i) = i + 1`, `R(i) = i + 2` modulo 5. -/
def ring5 : Instance := { n := 5, L := [1, 2, 3, 4, 0], R := [2, 3, 4, 0, 1] }

/-- Scenario A: one node. -/
def single : Instance := { n := 1, L := [0], R := [0] }

/-- Scenario B: two nodes pointing at each other. -/
def swap2 : Instance := { n := 2, L := [1, 0], R := [1, 0] }

/-! ## Counting, shapes and loop invariants used in the proofs -/

/-- The shape a table `P2` has after the Builder ran on a well-formed instance: every
row of a node has six entries and every entry is a node. -/
structure Shaped (n : Nat) (P2 : List (List Nat)) : Prop where
  len : ∀ x, x < n → (nbrs P2 x).length = 6
  lt : ∀ x, x < n → ∀ y ∈ nbrs P2 x, y < n

/-- Occurrences of `y`, with multiplicity, in the rows of the nodes listed in `l`. -/
def occL (P2 : List (List Nat)) (l : List Nat) (y : Nat) : Nat :=
  (l.map (fun z => (nbrs P2 z).count y)).sum

/-- Occurrences of `y`, with multiplicity, in the rows of the nodes of the set `S`. -/
def occ (P2 : List (List Nat)) (S : Finset Nat) (y : Nat) : Nat :=
  ∑ z ∈ S, (nbrs P2 z).count y

/-- The nodes that are not in the order `O` yet. -/
def unseen (n : Nat) (O : List Nat) : Finset Nat :=
  (Finset.range n).filter (fun z => z ∉ O)

/-- What the loop over `P2[x]` of lines 86-94 has done to the state. -/
structure RelaxPost (n : Nat) (ys : List Nat) (s r : OState) : Prop where
  seen : r.SEEN = s.SEEN
  ord : r.O = s.O
  len : r.IN.length = n
  inv : ∀ y, rd r.IN y = rd s.IN y - ys.count y
  qlen : r.Q.length ≤ s.Q.length + ys.length
  qmono : ∀ y ∈ s.Q, y ∈ r.Q
  qnew : ∀ y ∈ r.Q, y ∈ s.Q ∨ (y ∈ ys ∧ rd r.IN y ≤ 6)
  qall : ∀ y ∈ ys, rd r.IN y ≤ 6 → y ∈ r.Q

/-- The loop invariant of `while(!Q.empty())`. -/
structure OInv (n : Nat) (P2 : List (List Nat)) (s : OState) : Prop where
  lenIN : s.IN.length = n
  lenSEEN : s.SEEN.length = n
  seen_iff : ∀ x, x < n → (rd s.SEEN x ≠ 0 ↔ x ∈ s.O)
  nodup : s.O.Nodup
  O_lt : ∀ x ∈ s.O, x < n
  in_eq : ∀ y, y < n → rd s.IN y = occ P2 (unseen n s.O) y
  queued : ∀ y, y < n → y ∉ s.O → rd s.IN y ≤ 6 → y ∈ s.Q
  Q_ok : ∀ x ∈ s.Q, x < n ∧ rd s.IN x ≤ 6
  late : ∀ pre x post, s.O = pre ++ x :: post →
    occL P2 pre x + occ P2 (unseen n s.O) x ≤ 6

/-- The quantity that every pop decreases. -/
def mu (n : Nat) (s : OState) : Nat := s.Q.length + 6 * (unseen n s.O).card

/-- What the Colorer needs from an order: it lists every node once, and every node `x`
occurs at most six times in the rows of the nodes placed before it. -/
structure GoodOrder (n : Nat) (P2 : List (List Nat)) (O : List Nat) : Prop where
  nodup : O.Nodup
  mem : ∀ x, x ∈ O ↔ x < n
  late : ∀ pre x post, O = pre ++ x :: post → occL P2 pre x ≤ 6

/-- The shape of `BAD`: `n` rows of 13 entries. -/
structure TableOK (n : Nat) (B : List (List Int)) : Prop where
  len : B.length = n
  row : ∀ z, z < n → (B.getD z []).length = 13

/-- The loop invariant of `for(ll x : O)`, where `pre` lists the nodes already processed. -/
structure CInv (n : Nat) (P2 : List (List Nat)) (pre : List Nat) (s : CState) : Prop where
  tab : TableOK n s.BAD
  lenC : s.COLOR.length = n
  uncol : ∀ v, v < n → v ∉ pre → rd s.COLOR v = -1
  col : ∀ v ∈ pre, 0 ≤ rd s.COLOR v ∧ rd s.COLOR v < 13
  bad : ∀ v, v < n → v ∉ pre → ∀ c, c < 13 →
    (rd2 s.BAD v c ≠ 0 ↔ ∃ u ∈ pre, v ∈ nbrs P2 u ∧ rd s.COLOR u = (c : Int))
  valid : ∀ v ∈ pre, ∀ y ∈ nbrs P2 v, y ∈ pre → rd s.COLOR v ≠ rd s.COLOR y

/-- What one iteration of the coloring loop does for the node `x`: the color `c` it
picks is free at the scan, every larger color is forbidden, no other node changes. -/
structure StepPost (n : Nat) (P2 : List (List Nat)) (pre : List Nat) (s : CState) (x : Nat)
    (c : Nat) (s1 : CState) : Prop where
  lt : c < 13
  free : rd2 (badAtScan P2 s x) x c = 0
  above : ∀ d, c < d → d < 13 → rd2 (badAtScan P2 s x) x d ≠ 0
  run : colorStep P2 s x = some s1
  color : rd s1.COLOR x = (c : Int)
  frame : ∀ z, z ≠ x → rd s1.COLOR z = rd s.COLOR z
  inv : CInv n P2 (pre ++ [x]) s1

/-! ## Observing the peeling loop -/

/-- One iteration of the `while` loop (lines 81-94): pop `x`, skip it when it is `SEEN`,
finalize it otherwise. A state with an empty queue has left the loop and stays as it
is. -/
def popStep (P2 : List (List Nat)) (s : OState) : Option OState :=
  match s.Q with
  | [] => some s
  | x :: Q1 =>
    if rd s.SEEN x ≠ 0 then some { s with Q := Q1 } else finalize P2 { s with Q := Q1 } x

/-- The state of the peeling loop after `k` iterations. -/
def peelN (P2 : List (List Nat)) : Nat → OState → Option OState
  | 0, s => some s
  | k + 1, s =>
    match popStep P2 s with
    | none => none
    | some s1 => peelN P2 k s1

/-- The number of pairs `(z, k)` with `z` not finalized (`SEEN[z]` false) and
`P2[z][k] = y`. -/
def pairsInto (n : Nat) (P2 : List (List Nat)) (SEEN : List Int) (y : Nat) : Nat :=
  (((List.range n).filter (fun z => decide (rd SEEN z = 0))).map
    (fun z => (nbrs P2 z).count y)).sum

/-- The nodes finalized by `peel`, in the sequence in which line 83 is reached. -/
def finalizedSeq (P2 : List (List Nat)) : Nat → OState → List Nat
  | 0, _ => []
  | fuel + 1, s =>
    match s.Q with
    | [] => []
    | x :: Q1 =>
      if rd s.SEEN x ≠ 0 then finalizedSeq P2 fuel { s with Q := Q1 }
      else
        match finalize P2 { s with Q := Q1 } x with
        | none => []
        | some s1 => x :: finalizedSeq P2 fuel s1

/-- The nodes popped by `peel` (line 81), in sequence. The queue is only pushed at the
back and popped at the front, and it is empty when the loop ends, so every push is
popped once: a node is popped as often as it was pushed. -/
def poppedSeq (P2 : List (List Nat)) : Nat → OState → List Nat
  | 0, _ => []
  | fuel + 1, s =>
    match s.Q with
    | [] => []
    | x :: Q1 =>
      if rd s.SEEN x ≠ 0 then x :: poppedSeq P2 fuel { s with Q := Q1 }
      else
        match finalize P2 { s with Q := Q1 } x with
        | none => [x]
        | some s1 => x :: poppedSeq P2 fuel s1

/-- The nodes pushed by the loop of lines 86-94 for the row `ys`, in sequence. -/
def pushedBy (s : OState) : List Nat → List Nat
  | [] => []
  | y :: ys => if rd s.IN y - 1 ≤ 6 then y :: pushedBy (relax s y) ys else pushedBy (relax s y) ys

/-- The nodes pushed onto the queue by `peel` inside the loop (line 92), in sequence;
the seeding pushes of line 76 are `seedQ`. -/
def pushLog (P2 : List (List Nat)) : Nat → OState → List Nat
  | 0, _ => []
  | fuel + 1, s =>
    match s.Q with
    | [] => []
    | x :: Q1 =>
      if rd s.SEEN x ≠ 0 then pushLog P2 fuel { s with Q := Q1 }
      else
        match finalize P2 { s with Q := Q1 } x with
        | none => []
        | some s1 =>
          pushedBy { s with Q := Q1, SEEN := wr s.SEEN x 1, O := x :: s.O } (nbrs P2 x)
            ++ pushLog P2 fuel s1

/-- The number of pushes a node can still receive when its in-degree is `v`: one for
each value among `v - 1, ..., 0` that is at most 6. -/
def pot (v : Int) : Nat := (min v 7).toNat

/-- Thirteen nodes on which the Colorer finds 11 forbidden colors when it scans
node 0. -/
def tight13 : Instance :=
  { n := 13, L := [9, 4, 10, 1, 2, 2, 5, 12, 10, 6, 11, 3, 9],
    R := [12, 8, 8, 4, 0, 3, 1, 6, 12, 5, 0, 9, 11] }

/-- Thirteen nodes on which node 2, the first to be finalized, has all twelve other
nodes as neighbors: six in its own row and six more that have it in theirs. -/
def wide13 : Instance :=
  { n := 13, L := [3, 7, 1, 10, 2, 10, 3, 9, 2, 11, 11, 12, 9],
    R := [10, 9, 0, 1, 3, 2, 5, 12, 7, 0, 1, 4, 4] }

end MascotMaze

/-!
# Win As Second: the spider trees

Shallow embedding of `mk_tree` of `src/win_as_second.cc` (lines 177-198), of the table
`GOOD` of `play` (lines 268-279) and of the loop of `play` that prints the edges
(lines 286-292). A `Tree` is a `vector<vector<ll>>` of adjacency lists; vertex ids are
natural numbers.

The vertex count `n` of `mk_tree` is an `ll`: the sum is taken modulo `2^64` in the
signed range (`wrap64`). The construction `Tree t(n, vector<ll>{})` fails when `n` is
negative or larger than the library allows; the largest size for which it succeeds is
the parameter `maxSize` of `mk_tree`, and a failed construction is the result `none`.
The vertex counter `v` and the loop counter `i` count up from 1 and stay below `n`, so
they are natural numbers.
-/

namespace WinAsSecond

end WinAsSecond

namespace MascotMaze

/-! ## Reading and writing arrays -/

theorem rd_wr_same (v : List Int) (i : Nat) (x : Int) (h : i < v.length) :
    rd (wr v i x) i = x := by
  simp [rd, wr, List.getD_eq_getElem?_getD, List.getElem?_set, h]

theorem rd_wr_other (v : List Int) (i j : Nat) (x : Int) (h : i ≠ j) :
    rd (wr v i x) j = rd v j := by
  simp [rd, wr, List.getD_eq_getElem?_getD, List.getElem?_set, h]

theorem length_wr (v : List Int) (i : Nat) (x : Int) : (wr v i x).length = v.length := by
  simp [wr]

theorem rd_replicate (n i : Nat) (a : Int) (h : i < n) : rd (List.replicate n a) i = a := by
  simp [rd, List.getD_eq_getElem?_getD, List.getElem?_replicate, h]

theorem length_wr2 (B : List (List Int)) (x c : Nat) (v : Int) :
    (wr2 B x c v).length = B.length := by
  simp [wr2]

theorem row_wr2_same (B : List (List Int)) (x c : Nat) (v : Int) (h : x < B.length) :
    (wr2 B x c v).getD x [] = wr (B.getD x []) c v := by
  simp [wr2, List.getD_eq_getElem?_getD, List.getElem?_set, h]

theorem row_wr2_other (B : List (List Int)) (x z c : Nat) (v : Int) (h : x ≠ z) :
    (wr2 B x c v).getD z [] = B.getD z [] := by
  simp [wr2, List.getD_eq_getElem?_getD, List.getElem?_set, h]

theorem rd2_wr2_other_row (B : List (List Int)) (x z c d : Nat) (v : Int) (h : x ≠ z) :
    rd2 (wr2 B x c v) z d = rd2 B z d := by
  unfold rd2
  rw [row_wr2_other B x z c v h]

theorem rd2_wr2_other_col (B : List (List Int)) (x c d : Nat) (v : Int) (h : c ≠ d) :
    rd2 (wr2 B x c v) x d = rd2 B x d := by
  by_cases hx : x < B.length
  · unfold rd2
    rw [row_wr2_same B x c v hx, rd_wr_other _ c d v h]
  · have : wr2 B x c v = B := by
      simp only [wr2]
      exact List.set_eq_of_length_le (by omega)
    rw [this]

theorem rd2_wr2_same (B : List (List Int)) (x c : Nat) (v : Int) (hx : x < B.length)
    (hc : c < (B.getD x []).length) : rd2 (wr2 B x c v) x c = v := by
  unfold rd2
  rw [row_wr2_same B x c v hx, rd_wr_same _ c v hc]

theorem rowlen_wr2 (B : List (List Int)) (x c z : Nat) (v : Int) :
    ((wr2 B x c v).getD z []).length = (B.getD z []).length := by
  by_cases hxz : x = z
  · subst hxz
    by_cases hx : x < B.length
    · rw [row_wr2_same B x c v hx, length_wr]
    · have : wr2 B x c v = B := by
        simp only [wr2]
        exact List.set_eq_of_length_le (by omega)
      rw [this]
  · rw [row_wr2_other B x z c v hxz]

/-! ## The Neighborhood Builder -/

theorem nbrs_buildP2 (n : Nat) (L R : List Nat) (i : Nat) (h : i < n) :
    nbrs (buildP2 n L R) i = p2row L R i := by
  simp [nbrs, buildP2, List.getD_eq_getElem?_getD, List.getElem?_map, List.getElem?_range h]

theorem nbrs_buildP2_out (n : Nat) (L R : List Nat) (i : Nat) (h : n ≤ i) :
    nbrs (buildP2 n L R) i = [] := by
  have : (List.map (p2row L R) (List.range n))[i]? = none := by
    apply List.getElem?_eq_none
    simp [h]
  simp [nbrs, buildP2, List.getD_eq_getElem?_getD, this]

theorem nd_lt (v : List Nat) (n i : Nat) (hlen : v.length = n) (hv : ∀ x ∈ v, x < n)
    (h : i < n) : nd v i < n := by
  have hi : i < v.length := by omega
  have : nd v i = v[i] := by
    simp [nd, List.getD_eq_getElem?_getD, List.getElem?_eq_getElem hi]
  rw [this]
  exact hv _ (List.getElem_mem hi)

theorem p2row_lt (I : Instance) (hwf : WellFormed I) (i : Nat) (h : i < I.n) :
    ∀ y ∈ p2row I.L I.R i, y < I.n := by
  obtain ⟨_, hL, hR, hLv, hRv⟩ := hwf
  have l1 := nd_lt I.L I.n i hL hLv h
  have r1 := nd_lt I.R I.n i hR hRv h
  have ll := nd_lt I.L I.n _ hL hLv l1
  have rl := nd_lt I.R I.n _ hR hRv l1
  have lr := nd_lt I.L I.n _ hL hLv r1
  have rr := nd_lt I.R I.n _ hR hRv r1
  intro y hy
  simp only [p2row, List.mem_cons, List.mem_singleton, List.not_mem_nil, or_false] at hy
  rcases hy with h | h | h | h | h | h <;> omega

theorem shaped_buildP2 (I : Instance) (hwf : WellFormed I) :
    Shaped I.n (buildP2 I.n I.L I.R) := by
  constructor
  · intro x hx
    rw [nbrs_buildP2 _ _ _ _ hx]
    rfl
  · intro x hx y hy
    rw [nbrs_buildP2 _ _ _ _ hx] at hy
    exact p2row_lt I hwf x hx y hy

/-! ## The feasibility check -/

theorem checkRow_true (i : Nat) (row : List Nat) (ok : Bool) :
    checkRow i ok row = true ↔ ok = true ∧ i ∉ row := by
  induction row generalizing ok with
  | nil => simp [checkRow]
  | cons a t ih =>
    have : checkRow i ok (a :: t) = checkRow i (if a = i then false else ok) t := rfl
    rw [this, ih]
    by_cases ha : a = i
    · subst ha
      simp
    · have : i ≠ a := fun h => ha h.symm
      simp [ha, this]

theorem feasible_fold (P2 : List (List Nat)) (l : List Nat) (ok : Bool) :
    l.foldl (fun ok i => checkRow i ok (nbrs P2 i)) ok = true ↔
      ok = true ∧ ∀ i ∈ l, i ∉ nbrs P2 i := by
  induction l generalizing ok with
  | nil => simp
  | cons a t ih =>
    rw [List.foldl_cons, ih, checkRow_true]
    simp only [List.mem_cons, forall_eq_or_imp]
    tauto

theorem feasible_iff (n : Nat) (P2 : List (List Nat)) :
    feasible n P2 = true ↔ ∀ i, i < n → i ∉ nbrs P2 i := by
  unfold feasible
  rw [feasible_fold]
  simp

/-! ## Counting occurrences in the rows of `P2` -/

theorem occL_range (P2 : List (List Nat)) (n y : Nat) :
    occL P2 (List.range n) y = occ P2 (Finset.range n) y := by
  rfl

theorem sum_count_le (l : List Nat) (S : Finset Nat) : ∑ y ∈ S, l.count y ≤ l.length := by
  induction l with
  | nil => simp
  | cons a t ih =>
    have h1 : ∀ y, (a :: t).count y = t.count y + (if a = y then 1 else 0) := by
      intro y
      rw [List.count_cons]
      simp
    simp only [h1, Finset.sum_add_distrib, Finset.sum_ite_eq, List.length_cons]
    split_ifs <;> omega

theorem unseen_nil (n : Nat) : unseen n [] = Finset.range n := by
  simp [unseen]

theorem mem_unseen (n : Nat) (O : List Nat) (x : Nat) : x ∈ unseen n O ↔ x < n ∧ x ∉ O := by
  simp [unseen]

theorem unseen_cons (n : Nat) (O : List Nat) (x : Nat) :
    unseen n (x :: O) = (unseen n O).erase x := by
  ext z
  simp only [mem_unseen, Finset.mem_erase, List.mem_cons, not_or]
  tauto

theorem occ_unseen_cons (P2 : List (List Nat)) (n : Nat) (O : List Nat) (x y : Nat)
    (hx : x < n) (hxO : x ∉ O) :
    occ P2 (unseen n (x :: O)) y + (nbrs P2 x).count y = occ P2 (unseen n O) y := by
  unfold occ
  rw [unseen_cons]
  exact Finset.sum_erase_add _ _ ((mem_unseen n O x).2 ⟨hx, hxO⟩)

theorem card_unseen_cons (n : Nat) (O : List Nat) (x : Nat) (hx : x < n) (hxO : x ∉ O) :
    (unseen n (x :: O)).card + 1 = (unseen n O).card := by
  rw [unseen_cons]
  exact Finset.card_erase_add_one ((mem_unseen n O x).2 ⟨hx, hxO⟩)

/-! ## The in-degree array and the seeded queue -/

theorem incr_fold (ys : List Nat) (IN : List Int) (n : Nat) (hlen : IN.length = n)
    (hys : ∀ y ∈ ys, y < n) :
    (ys.foldl (fun IN x => wr IN x (rd IN x + 1)) IN).length = n ∧
    ∀ y, rd (ys.foldl (fun IN x => wr IN x (rd IN x + 1)) IN) y = rd IN y + ys.count y := by
  induction ys generalizing IN with
  | nil => simp [hlen]
  | cons a t ih =>
    have ha : a < n := hys a (List.mem_cons_self _ _)
    have ht : ∀ y ∈ t, y < n := fun y hy => hys y (List.mem_cons_of_mem _ hy)
    have hlen1 : (wr IN a (rd IN a + 1)).length = n := by rw [length_wr]; exact hlen
    obtain ⟨h1, h2⟩ := ih (wr IN a (rd IN a + 1)) hlen1 ht
    refine ⟨h1, ?_⟩
    intro y
    rw [List.foldl_cons, h2 y, List.count_cons]
    by_cases hay : a = y
    · subst hay
      rw [rd_wr_same _ _ _ (by omega)]
      simp
      ring
    · rw [rd_wr_other _ _ _ _ hay]
      simp [hay]

theorem initIN_fold (P2 : List (List Nat)) (n : Nat) (hlt : ∀ x, x < n → ∀ y ∈ nbrs P2 x, y < n)
    (l : List Nat) (hl : ∀ x ∈ l, x < n) (IN : List Int) (hlen : IN.length = n) :
    (l.foldl (fun IN i => (nbrs P2 i).foldl (fun IN x => wr IN x (rd IN x + 1)) IN) IN).length
      = n ∧
    ∀ y, rd (l.foldl (fun IN i => (nbrs P2 i).foldl (fun IN x => wr IN x (rd IN x + 1)) IN) IN) y
      = rd IN y + occL P2 l y := by
  induction l generalizing IN with
  | nil => simp [hlen, occL]
  | cons a t ih =>
    have ha : a < n := hl a (List.mem_cons_self _ _)
    have ht : ∀ y ∈ t, y < n := fun y hy => hl y (List.mem_cons_of_mem _ hy)
    obtain ⟨h1, h2⟩ := incr_fold (nbrs P2 a) IN n hlen (hlt a ha)
    obtain ⟨h3, h4⟩ := ih ht _ h1
    refine ⟨h3, ?_⟩
    intro y
    rw [List.foldl_cons, h4 y, h2 y]
    simp [occL]
    ring

theorem length_initIN (P2 : List (List Nat)) (n : Nat)
    (hlt : ∀ x, x < n → ∀ y ∈ nbrs P2 x, y < n) : (initIN n P2).length = n :=
  (initIN_fold P2 n hlt (List.range n) (fun x hx => List.mem_range.1 hx)
    (List.replicate n 0) (by simp)).1

theorem rd_initIN (P2 : List (List Nat)) (n : Nat)
    (hlt : ∀ x, x < n → ∀ y ∈ nbrs P2 x, y < n) (y : Nat) (hy : y < n) :
    rd (initIN n P2) y = occ P2 (Finset.range n) y := by
  have h := (initIN_fold P2 n hlt (List.range n) (fun x hx => List.mem_range.1 hx)
    (List.replicate n 0) (by simp)).2 y
  rw [rd_replicate n y 0 hy, occL_range] at h
  unfold initIN
  rw [h]
  simp

theorem seed_fold (IN : List Int) (l Q : List Nat) :
    l.foldl (fun Q i => if rd IN i ≤ 6 then Q ++ [i] else Q) Q
      = Q ++ l.filter (fun i => decide (rd IN i ≤ 6)) := by
  induction l generalizing Q with
  | nil => simp
  | cons a t ih =>
    rw [List.foldl_cons, ih]
    by_cases h : rd IN a ≤ 6
    · simp [h]
    · simp [h]

theorem seedQ_eq (n : Nat) (IN : List Int) :
    seedQ n IN = (List.range n).filter (fun i => decide (rd IN i ≤ 6)) := by
  unfold seedQ
  rw [seed_fold]
  simp

theorem mem_seedQ (n : Nat) (IN : List Int) (y : Nat) :
    y ∈ seedQ n IN ↔ y < n ∧ rd IN y ≤ 6 := by
  rw [seedQ_eq]
  simp

theorem length_seedQ (n : Nat) (IN : List Int) : (seedQ n IN).length ≤ n := by
  rw [seedQ_eq]
  calc ((List.range n).filter _).length ≤ (List.range n).length := List.length_filter_le _ _
    _ = n := List.length_range n

/-! ## The inner loop of the Orderer -/

theorem relax_IN (s : OState) (y : Nat) : (relax s y).IN = wr s.IN y (rd s.IN y - 1) := by
  unfold relax
  dsimp only
  split_ifs <;> rfl

theorem relax_SEEN (s : OState) (y : Nat) : (relax s y).SEEN = s.SEEN := by
  unfold relax
  dsimp only
  split_ifs <;> rfl

theorem relax_O (s : OState) (y : Nat) : (relax s y).O = s.O := by
  unfold relax
  dsimp only
  split_ifs <;> rfl

theorem relax_Q (s : OState) (y : Nat) (hy : y < s.IN.length) :
    (relax s y).Q = if rd s.IN y - 1 ≤ 6 then s.Q ++ [y] else s.Q := by
  unfold relax
  dsimp only
  rw [rd_wr_same _ _ _ hy]
  split_ifs <;> rfl

theorem relax_fold (n : Nat) (ys : List Nat) (hys : ∀ y ∈ ys, y < n) (s : OState)
    (hlen : s.IN.length = n) : RelaxPost n ys s (ys.foldl relax s) := by
  induction ys generalizing s with
  | nil =>
    exact ⟨rfl, rfl, hlen, by simp, by simp, fun y hy => hy, fun y hy => Or.inl hy,
      fun y hy => absurd hy (List.not_mem_nil y)⟩
  | cons a t ih =>
    have ha : a < n := hys a (List.mem_cons_self _ _)
    have ht : ∀ y ∈ t, y < n := fun y hy => hys y (List.mem_cons_of_mem _ hy)
    have hlen1 : (relax s a).IN.length = n := by rw [relax_IN, length_wr]; exact hlen
    have hQ := relax_Q s a (by omega)
    have hIN := relax_IN s a
    have hrd : ∀ y, rd (relax s a).IN y = rd s.IN y - (if a = y then 1 else 0) := by
      intro y
      rw [hIN]
      by_cases hay : a = y
      · subst hay
        rw [rd_wr_same _ _ _ (by omega)]
        simp
      · rw [rd_wr_other _ _ _ _ hay]
        simp [hay]
    have p := ih ht (relax s a) hlen1
    rw [List.foldl_cons]
    have hinv : ∀ y, rd (List.foldl relax (relax s a) t).IN y
        = rd s.IN y - (List.count y (a :: t) : Nat) := by
      intro y
      rw [p.inv y, hrd y, List.count_cons]
      by_cases hay : a = y
      · simp [hay]
        ring
      · simp [hay]
    refine ⟨?_, ?_, p.len, hinv, ?_, ?_, ?_, ?_⟩
    · rw [p.seen, relax_SEEN]
    · rw [p.ord, relax_O]
    · have := p.qlen
      rw [hQ] at this
      simp only [List.length_cons]
      split_ifs at this
      · simp only [List.length_append, List.length_singleton] at this
        omega
      · omega
    · intro y hy
      apply p.qmono
      rw [hQ]
      split_ifs
      · exact List.mem_append_left _ hy
      · exact hy
    · intro y hy
      rcases p.qnew y hy with h | ⟨h1, h2⟩
      · rw [hQ] at h
        split_ifs at h with hc
        · rcases List.mem_append.1 h with h | h
          · exact Or.inl h
          · have hya : y = a := by simpa using h
            subst hya
            right
            refine ⟨List.mem_cons_self _ _, ?_⟩
            have e1 := p.inv y
            have e2 := hrd y
            simp only [if_true] at e2
            have : (0 : Int) ≤ (List.count y t : Nat) := Int.natCast_nonneg _
            omega
        · exact Or.inl h
      · exact Or.inr ⟨List.mem_cons_of_mem _ h1, h2⟩
    · intro y hy h6
      rcases List.mem_cons.1 hy with h | h
      · by_cases hyt : y ∈ t
        · exact p.qall y hyt h6
        · subst h
          apply p.qmono
          rw [hQ]
          have e1 := p.inv y
          have e2 := hrd y
          simp only [if_true] at e2
          have e3 : List.count y t = 0 := List.count_eq_zero_of_not_mem hyt
          rw [e3] at e1
          have hc : rd s.IN y - 1 ≤ 6 := by
            simp only [Nat.cast_zero, sub_zero] at e1
            omega
          rw [if_pos hc]
          simp
      · exact p.qall y h h6

/-! ## The invariant of the peeling loop -/

theorem oinv_init (n : Nat) (P2 : List (List Nat)) (hP : Shaped n P2) :
    OInv n P2 (initO n P2) := by
  have hlen := length_initIN P2 n hP.lt
  refine ⟨hlen, by simp [initO], ?_, by simp [initO], by simp [initO], ?_, ?_, ?_, ?_⟩
  · intro x hx
    simp [initO, rd_replicate n x 0 hx]
  · intro y hy
    simp only [initO, unseen_nil]
    exact rd_initIN P2 n hP.lt y hy
  · intro y hy _ h6
    exact (mem_seedQ n _ y).2 ⟨hy, h6⟩
  · intro x hx
    exact (mem_seedQ n _ x).1 hx
  · intro pre x post h
    simp [initO] at h

theorem mu_init (n : Nat) (P2 : List (List Nat)) : mu n (initO n P2) ≤ 7 * n := by
  have := length_seedQ n (initIN n P2)
  simp only [mu, initO, unseen_nil, Finset.card_range]
  omega

theorem oinv_skip (n : Nat) (P2 : List (List Nat)) (s : OState) (x : Nat) (Q1 : List Nat)
    (h : OInv n P2 s) (hQ : s.Q = x :: Q1) (hseen : rd s.SEEN x ≠ 0) :
    OInv n P2 { s with Q := Q1 } ∧ mu n { s with Q := Q1 } + 1 ≤ mu n s := by
  have hx : x < n := (h.Q_ok x (by rw [hQ]; exact List.mem_cons_self _ _)).1
  have hxO : x ∈ s.O := (h.seen_iff x hx).1 hseen
  refine ⟨⟨h.lenIN, h.lenSEEN, h.seen_iff, h.nodup, h.O_lt, h.in_eq, ?_, ?_, h.late⟩, ?_⟩
  · intro y hy hyO h6
    have := h.queued y hy hyO h6
    rw [hQ] at this
    rcases List.mem_cons.1 this with e | e
    · subst e
      exact absurd hxO hyO
    · exact e
  · intro y hy
    exact h.Q_ok y (by rw [hQ]; exact List.mem_cons_of_mem _ hy)
  · simp only [mu, hQ, List.length_cons]
    omega

theorem oinv_finalize (n : Nat) (P2 : List (List Nat)) (hP : Shaped n P2) (s : OState)
    (x : Nat) (Q1 : List Nat) (h : OInv n P2 s) (hQ : s.Q = x :: Q1)
    (hseen : ¬ rd s.SEEN x ≠ 0) :
    ∃ r, finalize P2 { s with Q := Q1 } x = some r ∧ OInv n P2 r ∧ mu n r + 1 ≤ mu n s := by
  obtain ⟨hx, hx6⟩ := h.Q_ok x (by rw [hQ]; exact List.mem_cons_self _ _)
  have hxO : x ∉ s.O := fun hc => hseen ((h.seen_iff x hx).2 hc)
  have p := relax_fold n (nbrs P2 x) (hP.lt x hx)
    { IN := s.IN, Q := Q1, SEEN := wr s.SEEN x 1, O := x :: s.O } h.lenIN
  refine ⟨(nbrs P2 x).foldl relax { IN := s.IN, Q := Q1, SEEN := wr s.SEEN x 1, O := x :: s.O },
    ?_, ?_, ?_⟩
  · unfold finalize
    exact if_pos hx6
  · have hO := p.ord
    have hS := p.seen
    have hI := p.inv
    dsimp only at hO hS hI
    refine ⟨p.len, ?_, ?_, ?_, ?_, ?_, ?_, ?_, ?_⟩
    · rw [hS, length_wr]
      exact h.lenSEEN
    · intro y hy
      rw [hS, hO]
      by_cases hxy : x = y
      · subst hxy
        rw [rd_wr_same _ _ _ (by rw [h.lenSEEN]; exact hx)]
        simp
      · rw [rd_wr_other _ _ _ _ hxy, h.seen_iff y hy]
        have hyx : y ≠ x := fun e => hxy e.symm
        simp [List.mem_cons, hyx]
    · rw [hO]
      exact List.nodup_cons.2 ⟨hxO, h.nodup⟩
    · intro y hy
      rw [hO] at hy
      rcases List.mem_cons.1 hy with e | e
      · rw [e]; exact hx
      · exact h.O_lt y e
    · intro y hy
      rw [hI y, hO, h.in_eq y hy]
      have e := occ_unseen_cons P2 n s.O x y hx hxO
      omega
    · intro y hy hyO h6
      rw [hO] at hyO
      by_cases hmem : y ∈ nbrs P2 x
      · exact p.qall y hmem h6
      · apply p.qmono
        have e := hI y
        rw [List.count_eq_zero_of_not_mem hmem] at e
        simp only [Nat.cast_zero, sub_zero] at e
        have hq := h.queued y hy (fun hc => hyO (List.mem_cons_of_mem _ hc)) (by omega)
        rw [hQ] at hq
        rcases List.mem_cons.1 hq with e1 | e1
        · exact absurd (by rw [e1]; exact List.mem_cons_self _ _) hyO
        · exact e1
    · intro y hy
      rcases p.qnew y hy with e | ⟨e1, e2⟩
      · have hq := h.Q_ok y (by rw [hQ]; exact List.mem_cons_of_mem _ e)
        refine ⟨hq.1, ?_⟩
        have e3 := hI y
        have : (0 : Int) ≤ (List.count y (nbrs P2 x) : Nat) := Int.natCast_nonneg _
        omega
      · exact ⟨hP.lt x hx y e1, e2⟩
    · intro pre z post hsplit
      rw [hO] at hsplit ⊢
      cases pre with
      | nil =>
        simp only [List.nil_append, List.cons.injEq] at hsplit
        obtain ⟨e1, _⟩ := hsplit
        subst e1
        have e := occ_unseen_cons P2 n s.O x x hx hxO
        have e2 := h.in_eq x hx
        simp only [occL, List.map_nil, List.sum_nil]
        omega
      | cons w pre1 =>
        simp only [List.cons_append, List.cons.injEq] at hsplit
        obtain ⟨e1, e2⟩ := hsplit
        subst e1
        have e := occ_unseen_cons P2 n s.O x z hx hxO
        have e3 := h.late pre1 z post e2
        simp only [occL, List.map_cons, List.sum_cons] at e3 ⊢
        omega
  · have hq := p.qlen
    have hO := p.ord
    dsimp only at hq hO
    have hc := card_unseen_cons n s.O x hx hxO
    have hl := hP.len x hx
    simp only [mu, hO, hQ, List.length_cons]
    omega

theorem peel_ok (n : Nat) (P2 : List (List Nat)) (hP : Shaped n P2) (fuel : Nat) :
    ∀ s, OInv n P2 s → mu n s ≤ fuel →
      ∃ r, peel P2 fuel s = some r ∧ OInv n P2 r ∧ r.Q = [] := by
  induction fuel with
  | zero =>
    intro s h hmu
    have hQ : s.Q = [] := by
      have : s.Q.length = 0 := by
        simp only [mu] at hmu
        omega
      exact List.length_eq_zero.1 this
    exact ⟨s, by simp [peel, hQ], h, hQ⟩
  | succ fuel ih =>
    intro s h hmu
    cases hQ : s.Q with
    | nil => exact ⟨s, by simp [peel, hQ], h, hQ⟩
    | cons x Q1 =>
      by_cases hseen : rd s.SEEN x ≠ 0
      · obtain ⟨h1, h2⟩ := oinv_skip n P2 s x Q1 h hQ hseen
        obtain ⟨r, hr, hr1, hr2⟩ := ih _ h1 (by omega)
        exact ⟨r, by simp only [peel, hQ, if_pos hseen]; exact hr, hr1, hr2⟩
      · obtain ⟨s1, hf, h1, h2⟩ := oinv_finalize n P2 hP s x Q1 h hQ hseen
        obtain ⟨r, hr, hr1, hr2⟩ := ih _ h1 (by omega)
        exact ⟨r, by simp only [peel, hQ, if_neg hseen, hf]; exact hr, hr1, hr2⟩

/-! ## The Orderer finalizes every node -/

theorem unseen_empty (n : Nat) (P2 : List (List Nat)) (hP : Shaped n P2) (r : OState)
    (h : OInv n P2 r) (hQ : r.Q = []) : unseen n r.O = ∅ := by
  have hbig : ∀ y ∈ unseen n r.O, 7 ≤ occ P2 (unseen n r.O) y := by
    intro y hy
    obtain ⟨hy1, hy2⟩ := (mem_unseen n r.O y).1 hy
    by_contra hc
    have h6 : rd r.IN y ≤ 6 := by
      rw [h.in_eq y hy1]
      omega
    have := h.queued y hy1 hy2 h6
    rw [hQ] at this
    exact absurd this (List.not_mem_nil y)
  have hlow : ∑ y ∈ unseen n r.O, 7 ≤ ∑ y ∈ unseen n r.O, occ P2 (unseen n r.O) y :=
    Finset.sum_le_sum hbig
  have hup : ∑ y ∈ unseen n r.O, occ P2 (unseen n r.O) y ≤ ∑ z ∈ unseen n r.O, 6 := by
    unfold occ
    rw [Finset.sum_comm]
    apply Finset.sum_le_sum
    intro z hz
    have hz1 := ((mem_unseen n r.O z).1 hz).1
    calc ∑ y ∈ unseen n r.O, List.count y (nbrs P2 z) ≤ (nbrs P2 z).length := sum_count_le _ _
      _ = 6 := hP.len z hz1
  simp only [Finset.sum_const, smul_eq_mul] at hlow hup
  have : (unseen n r.O).card = 0 := by omega
  exact Finset.card_eq_zero.1 this

theorem orderer_good (n : Nat) (P2 : List (List Nat)) (hP : Shaped n P2) :
    ∃ O, orderer n P2 = some O ∧ GoodOrder n P2 O := by
  obtain ⟨r, hr, hinv, hQ⟩ := peel_ok n P2 hP (7 * n) (initO n P2) (oinv_init n P2 hP)
    (mu_init n P2)
  refine ⟨r.O, by simp [orderer, hr], hinv.nodup, ?_, ?_⟩
  · intro x
    constructor
    · exact hinv.O_lt x
    · intro hx
      by_contra hc
      have : x ∈ unseen n r.O := (mem_unseen n r.O x).2 ⟨hx, hc⟩
      rw [unseen_empty n P2 hP r hinv hQ] at this
      exact absurd this (Finset.not_mem_empty x)
  · intro pre x post hsplit
    have := hinv.late pre x post hsplit
    omega

theorem goodOrder_perm (n : Nat) (P2 : List (List Nat)) (O : List Nat)
    (h : GoodOrder n P2 O) : O.Perm (List.range n) := by
  rw [List.perm_ext_iff_of_nodup h.nodup (List.nodup_range n)]
  intro x
  rw [h.mem x, List.mem_range]

/-! ## The table `BAD` -/

theorem tableOK_wr2 (n : Nat) (B : List (List Int)) (h : TableOK n B) (x c : Nat) (v : Int) :
    TableOK n (wr2 B x c v) := by
  constructor
  · rw [length_wr2]
    exact h.len
  · intro z hz
    rw [rowlen_wr2]
    exact h.row z hz

theorem rd2_wr2 (n : Nat) (B : List (List Int)) (h : TableOK n B) (x c z d : Nat) (v : Int)
    (hx : x < n) (hc : c < 13) :
    rd2 (wr2 B x c v) z d = if x = z ∧ c = d then v else rd2 B z d := by
  by_cases hxz : x = z
  · subst hxz
    by_cases hcd : c = d
    · subst hcd
      rw [rd2_wr2_same B x c v (by rw [h.len]; exact hx) (by rw [h.row x hx]; exact hc)]
      simp
    · rw [rd2_wr2_other_col B x c d v hcd]
      simp [hcd]
  · rw [rd2_wr2_other_row B x z c d v hxz]
    simp [hxz]

theorem tableOK_init (n : Nat) : TableOK n (initC n).BAD := by
  constructor
  · simp [initC]
  · intro z hz
    simp [initC, List.getD_eq_getElem?_getD, List.getElem?_replicate, hz]

theorem rd_replicate_zero (k c : Nat) : rd (List.replicate k 0) c = 0 := by
  unfold rd
  rw [List.getD_eq_getElem?_getD, List.getElem?_replicate]
  split_ifs <;> rfl

theorem rd2_init (n z c : Nat) : rd2 (initC n).BAD z c = 0 := by
  unfold rd2 initC
  dsimp only
  rw [List.getD_eq_getElem?_getD, List.getElem?_replicate]
  split_ifs
  · exact rd_replicate_zero 13 c
  · rfl

/-! ## The three inner loops of the Colorer -/

theorem markFrom_fold (n : Nat) (COLOR : List Int) (x : Nat) (hx : x < n)
    (ys : List Nat) (hcol : ∀ y ∈ ys, rd COLOR y < 13) (B : List (List Int))
    (hB : TableOK n B) :
    TableOK n (ys.foldl
      (fun B y => if 0 ≤ rd COLOR y then wr2 B x (rd COLOR y).toNat 1 else B) B) ∧
    ∀ z c, (rd2 (ys.foldl
      (fun B y => if 0 ≤ rd COLOR y then wr2 B x (rd COLOR y).toNat 1 else B) B) z c ≠ 0 ↔
      rd2 B z c ≠ 0 ∨ (z = x ∧ ∃ y ∈ ys, 0 ≤ rd COLOR y ∧ rd COLOR y = (c : Int))) := by
  induction ys generalizing B with
  | nil => exact ⟨hB, by simp⟩
  | cons a t ih =>
    have ht : ∀ y ∈ t, rd COLOR y < 13 := fun y hy => hcol y (List.mem_cons_of_mem _ hy)
    have ha := hcol a (List.mem_cons_self _ _)
    rw [List.foldl_cons]
    by_cases h0 : 0 ≤ rd COLOR a
    · rw [if_pos h0]
      obtain ⟨h1, h2⟩ := ih ht (wr2 B x (rd COLOR a).toNat 1) (tableOK_wr2 n B hB _ _ _)
      refine ⟨h1, ?_⟩
      intro z c
      rw [h2 z c, rd2_wr2 n B hB x _ z c 1 hx (by omega)]
      constructor
      · rintro (h | ⟨hz, y, hy, hy0, hyc⟩)
        · split_ifs at h with hc
          · right
            exact ⟨hc.1.symm, a, List.mem_cons_self _ _, h0, by omega⟩
          · exact Or.inl h
        · exact Or.inr ⟨hz, y, List.mem_cons_of_mem _ hy, hy0, hyc⟩
      · rintro (h | ⟨hz, y, hy, hy0, hyc⟩)
        · left
          split_ifs
          · exact one_ne_zero
          · exact h
        · rcases List.mem_cons.1 hy with e | e
          · subst e
            left
            rw [if_pos ⟨hz.symm, by omega⟩]
            exact one_ne_zero
          · exact Or.inr ⟨hz, y, e, hy0, hyc⟩
    · rw [if_neg h0]
      obtain ⟨h1, h2⟩ := ih ht B hB
      refine ⟨h1, ?_⟩
      intro z c
      rw [h2 z c]
      constructor
      · rintro (h | ⟨hz, y, hy, hy0, hyc⟩)
        · exact Or.inl h
        · exact Or.inr ⟨hz, y, List.mem_cons_of_mem _ hy, hy0, hyc⟩
      · rintro (h | ⟨hz, y, hy, hy0, hyc⟩)
        · exact Or.inl h
        · rcases List.mem_cons.1 hy with e | e
          · subst e
            exact absurd hy0 h0
          · exact Or.inr ⟨hz, y, e, hy0, hyc⟩

theorem markChildren_fold (n : Nat) (c0 : Nat) (hc0 : c0 < 13) (ys : List Nat)
    (hys : ∀ y ∈ ys, y < n) (B : List (List Int)) (hB : TableOK n B) :
    TableOK n (ys.foldl (fun B y => wr2 B y c0 1) B) ∧
    ∀ z c, (rd2 (ys.foldl (fun B y => wr2 B y c0 1) B) z c ≠ 0 ↔
      rd2 B z c ≠ 0 ∨ (z ∈ ys ∧ c = c0)) := by
  induction ys generalizing B with
  | nil => exact ⟨hB, by simp⟩
  | cons a t ih =>
    have ht : ∀ y ∈ t, y < n := fun y hy => hys y (List.mem_cons_of_mem _ hy)
    have ha := hys a (List.mem_cons_self _ _)
    rw [List.foldl_cons]
    obtain ⟨h1, h2⟩ := ih ht (wr2 B a c0 1) (tableOK_wr2 n B hB _ _ _)
    refine ⟨h1, ?_⟩
    intro z c
    rw [h2 z c, rd2_wr2 n B hB a c0 z c 1 ha hc0]
    constructor
    · rintro (h | ⟨hz, hc⟩)
      · split_ifs at h with hc
        · right
          exact ⟨by rw [← hc.1]; exact List.mem_cons_self _ _, hc.2.symm⟩
        · exact Or.inl h
      · exact Or.inr ⟨List.mem_cons_of_mem _ hz, hc⟩
    · rintro (h | ⟨hz, hc⟩)
      · left
        split_ifs
        · exact one_ne_zero
        · exact h
      · rcases List.mem_cons.1 hz with e | e
        · left
          rw [if_pos ⟨e.symm, hc.symm⟩]
          exact one_ne_zero
        · exact Or.inr ⟨e, hc⟩

theorem pick_fold (B : List (List Int)) (x : Nat) (C : List Int) (hx : x < C.length)
    (k : Nat) :
    ((List.range k).foldl (fun C c => if rd2 B x c = 0 then wr C x (c : Int) else C) C).length
      = C.length ∧
    (∀ z, z ≠ x → rd ((List.range k).foldl
      (fun C c => if rd2 B x c = 0 then wr C x (c : Int) else C) C) z = rd C z) ∧
    (((∀ c, c < k → rd2 B x c ≠ 0) ∧ rd ((List.range k).foldl
        (fun C c => if rd2 B x c = 0 then wr C x (c : Int) else C) C) x = rd C x) ∨
      ∃ c, c < k ∧ rd2 B x c = 0 ∧ rd ((List.range k).foldl
        (fun C c => if rd2 B x c = 0 then wr C x (c : Int) else C) C) x = (c : Int) ∧
        ∀ d, c < d → d < k → rd2 B x d ≠ 0) := by
  induction k with
  | zero =>
    refine ⟨rfl, fun z _ => rfl, Or.inl ⟨?_, rfl⟩⟩
    intro c hc
    omega
  | succ k ih =>
    obtain ⟨h1, h2, h3⟩ := ih
    rw [List.range_succ, List.foldl_append, List.foldl_cons, List.foldl_nil]
    by_cases hk : rd2 B x k = 0
    · rw [if_pos hk]
      refine ⟨by rw [length_wr]; exact h1, ?_, Or.inr ⟨k, by omega, hk, ?_, ?_⟩⟩
      · intro z hz
        rw [rd_wr_other _ _ _ _ (fun e => hz e.symm)]
        exact h2 z hz
      · exact rd_wr_same _ _ _ (by rw [h1]; exact hx)
      · intro d hd1 hd2
        omega
    · rw [if_neg hk]
      refine ⟨h1, h2, ?_⟩
      rcases h3 with ⟨h3a, h3b⟩ | ⟨c, hc1, hc2, hc3, hc4⟩
      · left
        refine ⟨?_, h3b⟩
        intro c hc
        by_cases e : c = k
        · rw [e]; exact hk
        · exact h3a c (by omega)
      · right
        refine ⟨c, by omega, hc2, hc3, ?_⟩
        intro d hd1 hd2
        by_cases e : d = k
        · rw [e]; exact hk
        · exact hc4 d hd1 (by omega)

/-! ## A free color exists -/

theorem filter_le_occL (P2 : List (List Nat)) (pre : List Nat) (x : Nat) :
    (pre.filter (fun u => decide (x ∈ nbrs P2 u))).length ≤ occL P2 pre x := by
  induction pre with
  | nil => simp [occL]
  | cons a t ih =>
    simp only [occL, List.map_cons, List.sum_cons] at ih ⊢
    by_cases ha : x ∈ nbrs P2 a
    · have : 0 < List.count x (nbrs P2 a) := List.count_pos_iff.2 ha
      rw [List.filter_cons_of_pos (by simpa using ha), List.length_cons]
      omega
    · rw [List.filter_cons_of_neg (by simpa using ha)]
      omega

theorem free_of_few (f : Nat → Int) (M : List Nat) (hM : M.length ≤ 12) (P : Nat → Prop)
    (hP : ∀ c, c < 13 → P c → ∃ u ∈ M, f u = (c : Int)) : ∃ c, c < 13 ∧ ¬ P c := by
  by_contra hc
  have hall : ∀ c, c < 13 → P c := by
    intro c hc13
    by_contra hn
    exact hc ⟨c, hc13, hn⟩
  have hsub : (Finset.range 13).image (fun c : Nat => (c : Int)) ⊆ (M.map f).toFinset := by
    intro z hz
    obtain ⟨c, hc1, hc2⟩ := Finset.mem_image.1 hz
    obtain ⟨u, hu, hfu⟩ := hP c (Finset.mem_range.1 hc1) (hall c (Finset.mem_range.1 hc1))
    rw [List.mem_toFinset, List.mem_map]
    exact ⟨u, hu, by rw [hfu, hc2]⟩
  have h1 := Finset.card_le_card hsub
  have h2 : ((Finset.range 13).image (fun c : Nat => (c : Int))).card = 13 := by
    rw [Finset.card_image_of_injective _ Nat.cast_injective, Finset.card_range]
  have h3 : (M.map f).toFinset.card ≤ (M.map f).length := List.toFinset_card_le _
  rw [List.length_map] at h3
  omega

/-! ## The invariant of the coloring loop -/

theorem cinv_init (n : Nat) (P2 : List (List Nat)) : CInv n P2 [] (initC n) := by
  refine ⟨tableOK_init n, by simp [initC], ?_, by simp, ?_, by simp⟩
  · intro v hv _
    exact rd_replicate n v (-1) hv
  · intro v _ _ c _
    simp [rd2_init]

/-- The meaning of `BAD[x]` at the moment the colors are scanned for `x`. -/
theorem scan_iff (n : Nat) (P2 : List (List Nat)) (hP : Shaped n P2) (pre : List Nat)
    (s : CState) (x : Nat) (h : CInv n P2 pre s) (hx : x < n) (hxpre : x ∉ pre) :
    TableOK n (badAtScan P2 s x) ∧
    (∀ z c, z ≠ x → (rd2 (badAtScan P2 s x) z c ≠ 0 ↔ rd2 s.BAD z c ≠ 0)) ∧
    ∀ c, c < 13 → (rd2 (badAtScan P2 s x) x c ≠ 0 ↔
      (∃ u ∈ pre, x ∈ nbrs P2 u ∧ rd s.COLOR u = (c : Int)) ∨
      (∃ y ∈ nbrs P2 x, y ∈ pre ∧ rd s.COLOR y = (c : Int))) := by
  have hcol : ∀ y ∈ nbrs P2 x, rd s.COLOR y < 13 := by
    intro y hy
    by_cases hyp : y ∈ pre
    · exact (h.col y hyp).2
    · rw [h.uncol y (hP.lt x hx y hy) hyp]
      decide
  obtain ⟨m1, m2⟩ := markFrom_fold n s.COLOR x hx (nbrs P2 x) hcol s.BAD h.tab
  refine ⟨m1, ?_, ?_⟩
  · intro z c hz
    unfold badAtScan markFromChildren
    rw [m2 z c]
    simp [hz]
  · intro c hc
    unfold badAtScan markFromChildren
    rw [m2 x c, h.bad x hx hxpre c hc]
    constructor
    · rintro (hl | ⟨_, y, hy, hy0, hyc⟩)
      · exact Or.inl hl
      · right
        refine ⟨y, hy, ?_, hyc⟩
        by_contra hyp
        rw [h.uncol y (hP.lt x hx y hy) hyp] at hy0
        omega
    · rintro (hl | ⟨y, hy, hyp, hyc⟩)
      · exact Or.inl hl
      · exact Or.inr ⟨rfl, y, hy, (h.col y hyp).1, hyc⟩

theorem scan_free (n : Nat) (P2 : List (List Nat)) (hP : Shaped n P2) (pre : List Nat)
    (s : CState) (x : Nat) (h : CInv n P2 pre s) (hx : x < n) (hxpre : x ∉ pre)
    (hocc : occL P2 pre x ≤ 6) : ∃ c, c < 13 ∧ rd2 (badAtScan P2 s x) x c = 0 := by
  obtain ⟨_, _, m3⟩ := scan_iff n P2 hP pre s x h hx hxpre
  have hlen : (pre.filter (fun u => decide (x ∈ nbrs P2 u)) ++ nbrs P2 x).length ≤ 12 := by
    have := filter_le_occL P2 pre x
    rw [List.length_append, hP.len x hx]
    omega
  obtain ⟨c, hc, hfree⟩ := free_of_few (rd s.COLOR) _ hlen
    (fun c => rd2 (badAtScan P2 s x) x c ≠ 0) (by
      intro c hc hbad
      rcases (m3 c hc).1 hbad with ⟨u, hu, hxu, huc⟩ | ⟨y, hy, _, hyc⟩
      · exact ⟨u, List.mem_append_left _ (List.mem_filter.2 ⟨hu, by simpa using hxu⟩), huc⟩
      · exact ⟨y, List.mem_append_right _ hy, hyc⟩)
  exact ⟨c, hc, not_not.1 hfree⟩

/-! ## One step of the coloring loop -/

theorem color_step (n : Nat) (P2 : List (List Nat)) (hP : Shaped n P2) (pre : List Nat)
    (s : CState) (x : Nat) (h : CInv n P2 pre s) (hx : x < n) (hxpre : x ∉ pre)
    (hself : x ∉ nbrs P2 x) (hocc : occL P2 pre x ≤ 6) :
    ∃ c s1, StepPost n P2 pre s x c s1 := by
  obtain ⟨m1, m2, m3⟩ := scan_iff n P2 hP pre s x h hx hxpre
  obtain ⟨c0, hc0, hfree0⟩ := scan_free n P2 hP pre s x h hx hxpre hocc
  obtain ⟨k1, k2, k3⟩ := pick_fold (badAtScan P2 s x) x s.COLOR (by rw [h.lenC]; exact hx) 13
  rcases k3 with ⟨hno, _⟩ | ⟨c, hc, hfree, hcol, habove⟩
  · exact absurd hfree0 (hno c0 hc0)
  have hpick : rd (pickColor (badAtScan P2 s x) x s.COLOR) x = (c : Int) := hcol
  have hframe : ∀ z, z ≠ x → rd (pickColor (badAtScan P2 s x) x s.COLOR) z = rd s.COLOR z := k2
  have hlen : (pickColor (badAtScan P2 s x) x s.COLOR).length = n := by
    rw [← h.lenC]; exact k1
  obtain ⟨n1, n2⟩ := markChildren_fold n c hc (nbrs P2 x) (hP.lt x hx) (badAtScan P2 s x) m1
  have hrun : colorStep P2 s x = some
      { BAD := markChildren P2 x (c : Int) (badAtScan P2 s x),
        COLOR := pickColor (badAtScan P2 s x) x s.COLOR } := by
    unfold colorStep
    dsimp only
    rw [hpick, if_pos (Int.natCast_nonneg c)]
  have hmc : markChildren P2 x (c : Int) (badAtScan P2 s x)
      = (nbrs P2 x).foldl (fun B y => wr2 B y c 1) (badAtScan P2 s x) := by
    unfold markChildren
    rw [Int.toNat_natCast]
  refine ⟨c, _, hc, hfree, habove, hrun, hpick, hframe, ?_⟩
  have hne : ∀ v ∈ pre, v ≠ x := fun v hv e => hxpre (e ▸ hv)
  refine ⟨by dsimp only; rw [hmc]; exact n1, hlen, ?_, ?_, ?_, ?_⟩
  · intro v hv hvp
    have hvx : v ≠ x := fun e => hvp (by rw [e]; simp)
    have hvp1 : v ∉ pre := fun e => hvp (List.mem_append_left _ e)
    dsimp only
    rw [hframe v hvx]
    exact h.uncol v hv hvp1
  · intro v hv
    dsimp only
    rcases List.mem_append.1 hv with e | e
    · rw [hframe v (hne v e)]
      exact h.col v e
    · have : v = x := by simpa using e
      subst this
      rw [hpick]
      omega
  · intro v hv hvp d hd
    have hvx : v ≠ x := fun e => hvp (by rw [e]; simp)
    have hvp1 : v ∉ pre := fun e => hvp (List.mem_append_left _ e)
    dsimp only
    rw [hmc, n2 v d, m2 v d hvx, h.bad v hv hvp1 d hd]
    constructor
    · rintro (⟨u, hu, hvu, hud⟩ | ⟨hvx1, hdc⟩)
      · exact ⟨u, List.mem_append_left _ hu, hvu, by rw [hframe u (hne u hu)]; exact hud⟩
      · exact ⟨x, by simp, hvx1, by rw [hpick, hdc]⟩
    · rintro ⟨u, hu, hvu, hud⟩
      rcases List.mem_append.1 hu with e | e
      · left
        exact ⟨u, e, hvu, by rw [hframe u (hne u e)] at hud; exact hud⟩
      · have : u = x := by simpa using e
        subst this
        right
        rw [hpick] at hud
        exact ⟨hvu, by omega⟩
  · intro v hv y hy hyp
    dsimp only
    rcases List.mem_append.1 hv with ev | ev
    · rcases List.mem_append.1 hyp with ey | ey
      · rw [hframe v (hne v ev), hframe y (hne y ey)]
        exact h.valid v ev y hy ey
      · have hyx : y = x := by simpa using ey
        subst hyx
        rw [hframe v (hne v ev), hpick]
        intro e
        obtain ⟨hv0, hv13⟩ := h.col v ev
        have hb : rd2 (badAtScan P2 s y) y c ≠ 0 :=
          (m3 c hc).2 (Or.inl ⟨v, ev, hy, e⟩)
        exact hb hfree
    · have hvx : v = x := by simpa using ev
      subst hvx
      rcases List.mem_append.1 hyp with ey | ey
      · rw [hframe y (hne y ey), hpick]
        intro e
        have hb : rd2 (badAtScan P2 s v) v c ≠ 0 :=
          (m3 c hc).2 (Or.inr ⟨y, hy, ey, e.symm⟩)
        exact hb hfree
      · have hyx : y = v := by simpa using ey
        subst hyx
        exact absurd hy hself

/-! ## The coloring loop -/

theorem colorLoop_append (P2 : List (List Nat)) (a b : List Nat) (s : CState) :
    colorLoop P2 (a ++ b) s = (colorLoop P2 a s).bind (colorLoop P2 b) := by
  induction a generalizing s with
  | nil => rfl
  | cons x t ih =>
    simp only [List.cons_append, colorLoop]
    cases colorStep P2 s x with
    | none => rfl
    | some s1 => exact ih s1

theorem color_run (n : Nat) (P2 : List (List Nat)) (hP : Shaped n P2) (O : List Nat)
    (hO : GoodOrder n P2 O) (hfeas : ∀ i, i < n → i ∉ nbrs P2 i) (rest : List Nat) :
    ∀ (pre post : List Nat) (s : CState), O = pre ++ rest ++ post → CInv n P2 pre s →
      ∃ s1, colorLoop P2 rest s = some s1 ∧ CInv n P2 (pre ++ rest) s1 := by
  induction rest with
  | nil =>
    intro pre post s _ h
    exact ⟨s, rfl, by rw [List.append_nil]; exact h⟩
  | cons x t ih =>
    intro pre post s hsplit h
    have hsplit1 : O = pre ++ x :: (t ++ post) := by
      rw [hsplit]; simp
    have hx : x < n := (hO.mem x).1 (by rw [hsplit1]; simp)
    have hxpre : x ∉ pre := by
      intro hc
      have hnd := hO.nodup
      rw [hsplit1] at hnd
      have := (List.nodup_append.1 hnd).2.2
      exact this hc (List.mem_cons_self _ _)
    obtain ⟨c, s1, p⟩ := color_step n P2 hP pre s x h hx hxpre (hfeas x hx)
      (hO.late pre x (t ++ post) hsplit1)
    obtain ⟨s2, hs2, hinv2⟩ := ih (pre ++ [x]) post s1 (by rw [hsplit]; simp) p.inv
    refine ⟨s2, ?_, ?_⟩
    · simp only [colorLoop, p.run]
      exact hs2
    · have : pre ++ x :: t = pre ++ [x] ++ t := by simp
      rw [this]
      exact hinv2

/-- The state of the Colorer after it processed a prefix of a good order. -/
theorem color_upto (n : Nat) (P2 : List (List Nat)) (hP : Shaped n P2) (O : List Nat)
    (hO : GoodOrder n P2 O) (hfeas : ∀ i, i < n → i ∉ nbrs P2 i) (pre post : List Nat)
    (hsplit : O = pre ++ post) :
    ∃ s, colorLoop P2 pre (initC n) = some s ∧ CInv n P2 pre s := by
  have := color_run n P2 hP O hO hfeas pre [] post (initC n) (by simpa using hsplit)
    (cinv_init n P2)
  simpa using this

/-! ## Frame properties of the coloring loop -/

theorem pickColor_frame (B : List (List Int)) (x : Nat) (C : List Int) (z : Nat)
    (hz : z ≠ x) : rd (pickColor B x C) z = rd C z := by
  unfold pickColor
  generalize List.range 13 = l
  induction l generalizing C with
  | nil => rfl
  | cons a t ih =>
    rw [List.foldl_cons, ih]
    split_ifs
    · exact rd_wr_other _ _ _ _ (fun e => hz e.symm)
    · rfl

theorem colorStep_frame (P2 : List (List Nat)) (s s1 : CState) (x z : Nat)
    (h : colorStep P2 s x = some s1) (hz : z ≠ x) : rd s1.COLOR z = rd s.COLOR z := by
  unfold colorStep at h
  dsimp only at h
  split_ifs at h
  cases h
  exact pickColor_frame _ x s.COLOR z hz

theorem colorLoop_frame (P2 : List (List Nat)) (l : List Nat) (s s1 : CState) (z : Nat)
    (h : colorLoop P2 l s = some s1) (hz : z ∉ l) : rd s1.COLOR z = rd s.COLOR z := by
  induction l generalizing s with
  | nil =>
    cases h
    rfl
  | cons x t ih =>
    simp only [colorLoop] at h
    cases hstep : colorStep P2 s x with
    | none => rw [hstep] at h; cases h
    | some s2 =>
      rw [hstep] at h
      rw [ih s2 h (fun e => hz (List.mem_cons_of_mem _ e))]
      exact colorStep_frame P2 s s2 x z hstep (fun e => hz (by rw [e]; exact List.mem_cons_self _ _))

/-! ## More fuel does not change the result of the peeling loop -/

theorem peel_succ (P2 : List (List Nat)) (fuel : Nat) :
    ∀ s r, peel P2 fuel s = some r → peel P2 (fuel + 1) s = some r := by
  induction fuel with
  | zero =>
    intro s r h
    cases hQ : s.Q with
    | nil =>
      simp only [peel, hQ, if_true] at h ⊢
      exact h
    | cons x Q1 => simp [peel, hQ] at h
  | succ fuel ih =>
    intro s r h
    cases hQ : s.Q with
    | nil =>
      simp only [peel, hQ] at h ⊢
      exact h
    | cons x Q1 =>
      rw [peel] at h ⊢
      simp only [hQ] at h ⊢
      by_cases hseen : rd s.SEEN x ≠ 0
      · rw [if_pos hseen] at h ⊢
        exact ih _ r h
      · rw [if_neg hseen] at h ⊢
        cases hf : finalize P2 { s with Q := Q1 } x with
        | none =>
          rw [hf] at h
          cases h
        | some s1 =>
          rw [hf] at h
          exact ih _ r h

theorem peel_mono (P2 : List (List Nat)) (s r : OState) (fuel fuel1 : Nat)
    (h : peel P2 fuel s = some r) (hle : fuel ≤ fuel1) : peel P2 fuel1 s = some r := by
  induction hle with
  | refl => exact h
  | step _ ih => exact peel_succ P2 _ s r ih

/-! ## The whole pipeline -/

theorem noSelf_nbrs (I : Instance) (hns : NoSelf I) :
    ∀ i, i < I.n → i ∉ nbrs (buildP2 I.n I.L I.R) i := by
  intro i hi
  rw [nbrs_buildP2 _ _ _ _ hi]
  exact hns i hi

theorem feasible_of_noSelf (I : Instance) (hns : NoSelf I) :
    feasible I.n (buildP2 I.n I.L I.R) = true :=
  (feasible_iff _ _).2 (noSelf_nbrs I hns)

theorem noSelf_of_feasible (I : Instance)
    (h : feasible I.n (buildP2 I.n I.L I.R) = true) : NoSelf I := by
  intro i hi
  have := (feasible_iff _ _).1 h i hi
  rw [nbrs_buildP2 _ _ _ _ hi] at this
  exact this

/-- Orderer and Colorer both run to the end on a well-formed instance without
self-proximity, and the loop invariant holds for the final state. -/
theorem pipeline (I : Instance) (hwf : WellFormed I) (hns : NoSelf I) :
    ∃ O s, orderer I.n (buildP2 I.n I.L I.R) = some O ∧
      GoodOrder I.n (buildP2 I.n I.L I.R) O ∧
      colorLoop (buildP2 I.n I.L I.R) O (initC I.n) = some s ∧
      CInv I.n (buildP2 I.n I.L I.R) O s ∧
      finalColor I = some s.COLOR := by
  have hP := shaped_buildP2 I hwf
  obtain ⟨O, hO, hgood⟩ := orderer_good I.n _ hP
  obtain ⟨s, hs, hinv⟩ := color_upto I.n _ hP O hgood (noSelf_nbrs I hns) O [] (by simp)
  refine ⟨O, s, hO, hgood, hs, hinv, ?_⟩
  unfold finalColor
  rw [hO]
  simp only [colorer, hs, Option.map_some']

/-! ## The solver -/

theorem solve_feasible (I : Instance) (h : feasible I.n (buildP2 I.n I.L I.R) = true) :
    solve I = (finalColor I).map (fun COLOR => Answer.coloring (render I.n COLOR)) := by
  unfold solve
  rw [if_pos h]

theorem solve_infeasible (I : Instance) (h : ¬ feasible I.n (buildP2 I.n I.L I.R) = true) :
    solve I = some Answer.impossible := by
  unfold solve
  rw [if_neg h]

theorem solve_impossible_iff (I : Instance) :
    solve I = some Answer.impossible ↔ ¬ feasible I.n (buildP2 I.n I.L I.R) = true := by
  constructor
  · intro hs hf
    rw [solve_feasible I hf] at hs
    cases hfc : finalColor I with
    | none => rw [hfc] at hs; cases hs
    | some C => rw [hfc] at hs; cases hs
  · exact solve_infeasible I

theorem infeasible_iff (I : Instance) :
    ¬ feasible I.n (buildP2 I.n I.L I.R) = true ↔ ∃ i, i < I.n ∧ i ∈ ProximitySet I i := by
  rw [feasible_iff]
  constructor
  · intro h
    by_contra hc
    apply h
    intro i hi hmem
    rw [nbrs_buildP2 _ _ _ _ hi] at hmem
    exact hc ⟨i, hi, hmem⟩
  · rintro ⟨i, hi, hmem⟩ h
    apply h i hi
    rw [nbrs_buildP2 _ _ _ _ hi]
    exact hmem

theorem final_facts (I : Instance) (hwf : WellFormed I) (hns : NoSelf I) :
    ∃ COLOR, finalColor I = some COLOR ∧ COLOR.length = I.n ∧
      (∀ i, i < I.n → 0 ≤ rd COLOR i ∧ rd COLOR i < 13) ∧
      ∀ i, i < I.n → ∀ y ∈ ProximitySet I i, rd COLOR i ≠ rd COLOR y := by
  obtain ⟨O, s, _, hgood, _, hinv, hfin⟩ := pipeline I hwf hns
  refine ⟨s.COLOR, hfin, hinv.lenC, ?_, ?_⟩
  · intro i hi
    exact hinv.col i ((hgood.mem i).2 hi)
  · intro i hi y hy
    have hy1 : y ∈ nbrs (buildP2 I.n I.L I.R) i := by
      rw [nbrs_buildP2 _ _ _ _ hi]; exact hy
    have hyn : y < I.n := (shaped_buildP2 I hwf).lt i hi y hy1
    exact hinv.valid i ((hgood.mem i).2 hi) y hy1 ((hgood.mem y).2 hyn)

theorem render_length (n : Nat) (C : List Int) : (render n C).length = n := by
  simp [render]

theorem render_get (n : Nat) (C : List Int) (i : Nat) (hi : i < n) :
    (render n C)[i]? = some (colors.getD (rd C i).toNat ' ') := by
  simp [render, List.getElem?_map, List.getElem?_range hi]

theorem colors_get (c : Nat) (hc : c < 13) : colors[c]? = some (colors.getD c ' ') := by
  have hlen : c < colors.length := hc
  rw [List.getD_eq_getElem?_getD, List.getElem?_eq_getElem hlen]
  rfl

theorem colors_inj : ∀ a, a < 13 → ∀ b, b < 13 →
    colors.getD a ' ' = colors.getD b ' ' → a = b := by
  decide

/-! ## The claims -/

/-- C1: on a well-formed instance the solver answers IMPOSSIBLE exactly when no valid
coloring with 13 colors exists, and whenever one exists it answers with a coloring: the
rendering of the final `COLOR` array, which is itself a valid coloring; the answer has
`n` letters, letter `i` is the palette letter of `COLOR[i]`, and the letters of `i` and
of every `y` in `ProximitySet(i)` differ. -/
theorem solve_impossible_iff_no_coloring (I : Instance) (hwf : WellFormed I) :
    (solve I = some Answer.impossible ↔ ¬ ∃ col, ValidColoring I col) ∧
    ((∃ col, ValidColoring I col) →
      ∃ COLOR, finalColor I = some COLOR ∧
        solve I = some (Answer.coloring (render I.n COLOR)) ∧
        ValidColoring I (fun i => (rd COLOR i).toNat) ∧
        (render I.n COLOR).length = I.n ∧
        (∀ i, i < I.n → 0 ≤ rd COLOR i ∧
          ∃ a, (render I.n COLOR)[i]? = some a ∧ colors[(rd COLOR i).toNat]? = some a) ∧
        ∀ i, i < I.n → ∀ y ∈ ProximitySet I i,
          ∃ a b, (render I.n COLOR)[i]? = some a ∧ (render I.n COLOR)[y]? = some b ∧
            a ≠ b) := by
  by_cases hf : feasible I.n (buildP2 I.n I.L I.R) = true
  · obtain ⟨C, hC, _, hrange, hvalid⟩ := final_facts I hwf (noSelf_of_feasible I hf)
    have hcol : ValidColoring I (fun i => (rd C i).toNat) := by
      constructor
      · intro i hi
        have := hrange i hi
        show (rd C i).toNat < 13
        omega
      · intro i hi y hy
        have hyn : y < I.n := p2row_lt I hwf i hi y hy
        have h1 := hrange i hi
        have h2 := hrange y hyn
        have h3 := hvalid i hi y hy
        show (rd C i).toNat ≠ (rd C y).toNat
        omega
    have hs : solve I = some (Answer.coloring (render I.n C)) := by
      rw [solve_feasible I hf, hC]
      rfl
    have hletters : ∀ i, i < I.n → 0 ≤ rd C i ∧
        ∃ a, (render I.n C)[i]? = some a ∧ colors[(rd C i).toNat]? = some a := by
      intro i hi
      obtain ⟨h0, h13⟩ := hrange i hi
      have hget : (render I.n C)[i]? = some (colors.getD (rd C i).toNat ' ') := by
        simp [render, List.getElem?_map, List.getElem?_range hi]
      exact ⟨h0, _, hget, colors_get _ (by omega)⟩
    have hdiff : ∀ i, i < I.n → ∀ y ∈ ProximitySet I i,
        ∃ a b, (render I.n C)[i]? = some a ∧ (render I.n C)[y]? = some b ∧ a ≠ b := by
      intro i hi y hy
      have hyn : y < I.n := p2row_lt I hwf i hi y hy
      have hgi : (render I.n C)[i]? = some (colors.getD (rd C i).toNat ' ') := by
        simp [render, List.getElem?_map, List.getElem?_range hi]
      have hgy : (render I.n C)[y]? = some (colors.getD (rd C y).toNat ' ') := by
        simp [render, List.getElem?_map, List.getElem?_range hyn]
      refine ⟨_, _, hgi, hgy, ?_⟩
      intro e
      obtain ⟨h0, h13⟩ := hrange i hi
      obtain ⟨g0, g13⟩ := hrange y hyn
      have := colors_inj _ (by omega) _ (by omega) e
      exact hvalid i hi y hy (by omega)
    have hlen : (render I.n C).length = I.n := by simp [render]
    refine ⟨?_, fun _ => ⟨C, hC, hs, hcol, hlen, hletters, hdiff⟩⟩
    constructor
    · intro h
      rw [hs] at h
      cases h
    · intro h
      exact absurd ⟨_, hcol⟩ h
  · have hs := solve_infeasible I hf
    obtain ⟨i, hi, hmem⟩ := (infeasible_iff I).1 hf
    have hno : ¬ ∃ col, ValidColoring I col := by
      rintro ⟨col, _, hv⟩
      exact hv i hi i hmem rfl
    exact ⟨⟨fun _ => hno, fun _ => hs⟩, fun h => absurd h hno⟩

/-- Witness of C1 on the five-node ring. -/
theorem solve_impossible_iff_no_coloring_witness :
    WellFormed ring5 ∧
    ((solve ring5 = some Answer.impossible ↔ ¬ ∃ col, ValidColoring ring5 col) ∧
    ((∃ col, ValidColoring ring5 col) →
      ∃ COLOR, finalColor ring5 = some COLOR ∧
        solve ring5 = some (Answer.coloring (render ring5.n COLOR)) ∧
        ValidColoring ring5 (fun i => (rd COLOR i).toNat) ∧
        (render ring5.n COLOR).length = ring5.n ∧
        (∀ i, i < ring5.n → 0 ≤ rd COLOR i ∧
          ∃ a, (render ring5.n COLOR)[i]? = some a ∧
            colors[(rd COLOR i).toNat]? = some a) ∧
        ∀ i, i < ring5.n → ∀ y ∈ ProximitySet ring5 i,
          ∃ a b, (render ring5.n COLOR)[i]? = some a ∧
            (render ring5.n COLOR)[y]? = some b ∧ a ≠ b)) :=
  ⟨by decide, solve_impossible_iff_no_coloring ring5 (by decide)⟩

/-- C2: on a well-formed instance without self-proximity, Orderer and Colorer run to the
end and the final `COLOR` array gives every node `i` a color different from the color of
every `y` in `ProximitySet(i)`. -/
theorem coloring_valid (I : Instance) (hwf : WellFormed I) (hns : NoSelf I) :
    ∃ COLOR, finalColor I = some COLOR ∧
      ∀ i, i < I.n → ∀ y ∈ ProximitySet I i, rd COLOR i ≠ rd COLOR y := by
  obtain ⟨C, hC, _, _, hvalid⟩ := final_facts I hwf hns
  exact ⟨C, hC, hvalid⟩

/-- Witness of C2 on the five-node ring. -/
theorem coloring_valid_witness :
    WellFormed ring5 ∧ NoSelf ring5 ∧
    ∃ COLOR, finalColor ring5 = some COLOR ∧
      ∀ i, i < ring5.n → ∀ y ∈ ProximitySet ring5 i, rd COLOR i ≠ rd COLOR y :=
  ⟨by decide, by decide, coloring_valid ring5 (by decide) (by decide)⟩

/-- C3: on a well-formed instance without self-proximity the Orderer returns an order
`O`, and for every node `x` of `O` the Colorer reaches `x` (the nodes before `x` are
processed without a failed assertion), at the scan for `x` some color `c < 13` has
`BAD[x][c]` false, at most 12 colors are forbidden, and `assert(COLOR[x] >= 0)` holds,
so the step for `x` succeeds. -/
theorem free_color_exists (I : Instance) (hwf : WellFormed I) (hns : NoSelf I) :
    ∃ O, orderer I.n (buildP2 I.n I.L I.R) = some O ∧
      ∀ pre x post, O = pre ++ x :: post →
        ∃ s, colorLoop (buildP2 I.n I.L I.R) pre (initC I.n) = some s ∧
          (∃ c, c < 13 ∧ rd2 (badAtScan (buildP2 I.n I.L I.R) s x) x c = 0) ∧
          ((List.range 13).filter
            (fun c => decide (rd2 (badAtScan (buildP2 I.n I.L I.R) s x) x c ≠ 0))).length
              ≤ 12 ∧
          0 ≤ rd (pickColor (badAtScan (buildP2 I.n I.L I.R) s x) x s.COLOR) x ∧
          (colorStep (buildP2 I.n I.L I.R) s x).isSome = true := by
  have hP := shaped_buildP2 I hwf
  obtain ⟨O, hO, hgood⟩ := orderer_good I.n _ hP
  refine ⟨O, hO, ?_⟩
  intro pre x post hsplit
  obtain ⟨s, hs, hinv⟩ := color_upto I.n _ hP O hgood (noSelf_nbrs I hns) pre (x :: post)
    hsplit
  have hx : x < I.n := (hgood.mem x).1 (by rw [hsplit]; simp)
  have hxpre : x ∉ pre := by
    intro hc
    have hnd := hgood.nodup
    rw [hsplit] at hnd
    exact (List.nodup_append.1 hnd).2.2 hc (List.mem_cons_self _ _)
  obtain ⟨c, s1, p⟩ := color_step I.n _ hP pre s x hinv hx hxpre (noSelf_nbrs I hns x hx)
    (hgood.late pre x post hsplit)
  refine ⟨s, hs, ⟨c, p.lt, p.free⟩, ?_, ?_, by rw [p.run]; rfl⟩
  · have hlt : ((List.range 13).filter
        (fun c => decide (rd2 (badAtScan (buildP2 I.n I.L I.R) s x) x c ≠ 0))).length
          < (List.range 13).length := by
      rw [List.length_filter_lt_length_iff_exists]
      exact ⟨c, List.mem_range.2 p.lt, by simp [p.free]⟩
    rw [List.length_range] at hlt
    omega
  · have hrun := p.run
    unfold colorStep at hrun
    dsimp only at hrun
    by_contra hneg
    rw [if_neg hneg] at hrun
    cases hrun

/-- Witness of C3 on the five-node ring. -/
theorem free_color_exists_witness :
    WellFormed ring5 ∧ NoSelf ring5 ∧
    ∃ O, orderer ring5.n (buildP2 ring5.n ring5.L ring5.R) = some O ∧
      ∀ pre x post, O = pre ++ x :: post →
        ∃ s, colorLoop (buildP2 ring5.n ring5.L ring5.R) pre (initC ring5.n) = some s ∧
          (∃ c, c < 13 ∧ rd2 (badAtScan (buildP2 ring5.n ring5.L ring5.R) s x) x c = 0) ∧
          ((List.range 13).filter
            (fun c => decide
              (rd2 (badAtScan (buildP2 ring5.n ring5.L ring5.R) s x) x c ≠ 0))).length
              ≤ 12 ∧
          0 ≤ rd (pickColor (badAtScan (buildP2 ring5.n ring5.L ring5.R) s x) x s.COLOR) x ∧
          (colorStep (buildP2 ring5.n ring5.L ring5.R) s x).isSome = true :=
  ⟨by decide, by decide, free_color_exists ring5 (by decide) (by decide)⟩

/-- C4: on a well-formed instance without self-proximity the Colorer finishes, the final
`COLOR` array has `n` entries and every node has a color in `[0, 13)`; in particular no
node is left at the initial value `-1`. -/
theorem complete_bounded_assignment (I : Instance) (hwf : WellFormed I) (hns : NoSelf I) :
    ∃ COLOR, finalColor I = some COLOR ∧ COLOR.length = I.n ∧
      ∀ i, i < I.n → 0 ≤ rd COLOR i ∧ rd COLOR i < 13 ∧ rd COLOR i ≠ -1 := by
  obtain ⟨C, hC, hlen, hrange, _⟩ := final_facts I hwf hns
  refine ⟨C, hC, hlen, ?_⟩
  intro i hi
  have := hrange i hi
  omega

/-- Witness of C4 on the five-node ring. -/
theorem complete_bounded_assignment_witness :
    WellFormed ring5 ∧ NoSelf ring5 ∧
    ∃ COLOR, finalColor ring5 = some COLOR ∧ COLOR.length = ring5.n ∧
      ∀ i, i < ring5.n → 0 ≤ rd COLOR i ∧ rd COLOR i < 13 ∧ rd COLOR i ≠ -1 :=
  ⟨by decide, by decide, complete_bounded_assignment ring5 (by decide) (by decide)⟩

/-- C5: on a well-formed instance the flag `ok` is false, and the solver answers
IMPOSSIBLE, exactly when some node `i` equals one of `L(i)`, `L(L(i))`, `R(L(i))`,
`R(i)`, `L(R(i))`, `R(R(i))`; in particular a node with `L(i) = i` or `R(i) = i`, or with
a 2-hop path back to itself, makes the instance IMPOSSIBLE. -/
theorem feasibility_verdict (I : Instance) (hwf : WellFormed I) :
    (solve I = some Answer.impossible ↔
      ∃ i, i < I.n ∧ (nd I.L i = i ∨ nd I.L (nd I.L i) = i ∨ nd I.R (nd I.L i) = i ∨
        nd I.R i = i ∨ nd I.L (nd I.R i) = i ∨ nd I.R (nd I.R i) = i)) ∧
    (feasible I.n (buildP2 I.n I.L I.R) = false ↔
      ∃ i, i < I.n ∧ (nd I.L i = i ∨ nd I.L (nd I.L i) = i ∨ nd I.R (nd I.L i) = i ∨
        nd I.R i = i ∨ nd I.L (nd I.R i) = i ∨ nd I.R (nd I.R i) = i)) ∧
    (∀ i, i < I.n → (nd I.L i = i ∨ nd I.R i = i) → solve I = some Answer.impossible) ∧
    (∀ i, i < I.n → (nd I.L (nd I.L i) = i ∨ nd I.R (nd I.L i) = i ∨
        nd I.L (nd I.R i) = i ∨ nd I.R (nd I.R i) = i) →
      solve I = some Answer.impossible) := by
  have hn : 1 ≤ I.n := hwf.1
  have key : ¬ feasible I.n (buildP2 I.n I.L I.R) = true ↔
      ∃ i, i < I.n ∧ (nd I.L i = i ∨ nd I.L (nd I.L i) = i ∨ nd I.R (nd I.L i) = i ∨
        nd I.R i = i ∨ nd I.L (nd I.R i) = i ∨ nd I.R (nd I.R i) = i) := by
    rw [infeasible_iff]
    constructor
    · rintro ⟨i, hi, hmem⟩
      refine ⟨i, hi, ?_⟩
      simp only [ProximitySet, p2row, List.mem_cons, List.mem_singleton, List.not_mem_nil,
        or_false] at hmem
      rcases hmem with h | h | h | h | h | h
      · exact Or.inl h.symm
      · exact Or.inr (Or.inl h.symm)
      · exact Or.inr (Or.inr (Or.inl h.symm))
      · exact Or.inr (Or.inr (Or.inr (Or.inl h.symm)))
      · exact Or.inr (Or.inr (Or.inr (Or.inr (Or.inl h.symm))))
      · exact Or.inr (Or.inr (Or.inr (Or.inr (Or.inr h.symm))))
    · rintro ⟨i, hi, h⟩
      refine ⟨i, hi, ?_⟩
      simp only [ProximitySet, p2row, List.mem_cons, List.mem_singleton, List.not_mem_nil,
        or_false]
      rcases h with h | h | h | h | h | h
      · exact Or.inl h.symm
      · exact Or.inr (Or.inl h.symm)
      · exact Or.inr (Or.inr (Or.inl h.symm))
      · exact Or.inr (Or.inr (Or.inr (Or.inl h.symm)))
      · exact Or.inr (Or.inr (Or.inr (Or.inr (Or.inl h.symm))))
      · exact Or.inr (Or.inr (Or.inr (Or.inr (Or.inr h.symm))))
  refine ⟨?_, ?_, ?_, ?_⟩
  · rw [solve_impossible_iff, key]
  · rw [← key]
    simp
  · intro i hi h
    rw [solve_impossible_iff, key]
    refine ⟨i, hi, ?_⟩
    rcases h with h | h
    · exact Or.inl h
    · exact Or.inr (Or.inr (Or.inr (Or.inl h)))
  · intro i hi h
    rw [solve_impossible_iff, key]
    refine ⟨i, hi, ?_⟩
    rcases h with h | h | h | h
    · exact Or.inr (Or.inl h)
    · exact Or.inr (Or.inr (Or.inl h))
    · exact Or.inr (Or.inr (Or.inr (Or.inr (Or.inl h))))
    · exact Or.inr (Or.inr (Or.inr (Or.inr (Or.inr h))))

/-- Witness of C5 on Scenario B, where `L(L(0)) = 0`. -/
theorem feasibility_verdict_witness :
    WellFormed swap2 ∧ solve swap2 = some Answer.impossible :=
  ⟨by decide,
    (feasibility_verdict swap2 (by decide)).2.2.2 0 (by decide) (Or.inl (by decide))⟩

/-- C6: on a well-formed instance the peeling loop ends with an empty work queue within
`7 * n` pops (and gives the same state with any larger bound), every node of `[0, n)` is
then marked `SEEN`, and the order `O` is a permutation of `[0, n)`, holding each node
exactly once. -/
theorem orderer_permutation (I : Instance) (hwf : WellFormed I) :
    ∃ r, peel (buildP2 I.n I.L I.R) (7 * I.n) (initO I.n (buildP2 I.n I.L I.R)) = some r ∧
      (∀ fuel, 7 * I.n ≤ fuel →
        peel (buildP2 I.n I.L I.R) fuel (initO I.n (buildP2 I.n I.L I.R)) = some r) ∧
      r.Q = [] ∧
      (∀ x, x < I.n → rd r.SEEN x ≠ 0) ∧
      orderer I.n (buildP2 I.n I.L I.R) = some r.O ∧
      r.O.Perm (List.range I.n) ∧
      (∀ x, x < I.n → r.O.count x = 1) ∧
      r.O.length = I.n := by
  have hP := shaped_buildP2 I hwf
  obtain ⟨r, hr, hinv, hQ⟩ := peel_ok I.n _ hP (7 * I.n) _ (oinv_init I.n _ hP)
    (mu_init I.n _)
  have hall : ∀ x, x < I.n → x ∈ r.O := by
    intro x hx
    by_contra hc
    have : x ∈ unseen I.n r.O := (mem_unseen I.n r.O x).2 ⟨hx, hc⟩
    rw [unseen_empty I.n _ hP r hinv hQ] at this
    exact absurd this (Finset.not_mem_empty x)
  have hperm : r.O.Perm (List.range I.n) := by
    rw [List.perm_ext_iff_of_nodup hinv.nodup (List.nodup_range I.n)]
    intro x
    rw [List.mem_range]
    exact ⟨hinv.O_lt x, hall x⟩
  refine ⟨r, hr, fun fuel hle => peel_mono _ _ r _ fuel hr hle, hQ, ?_, ?_, hperm, ?_, ?_⟩
  · intro x hx
    exact (hinv.seen_iff x hx).2 (hall x hx)
  · simp [orderer, hr]
  · intro x hx
    exact List.count_eq_one_of_mem hinv.nodup (hall x hx)
  · rw [hperm.length_eq, List.length_range]

/-- Witness of C6 on the five-node ring. -/
theorem orderer_permutation_witness :
    WellFormed ring5 ∧
    ∃ r, peel (buildP2 ring5.n ring5.L ring5.R) (7 * ring5.n)
        (initO ring5.n (buildP2 ring5.n ring5.L ring5.R)) = some r ∧
      (∀ fuel, 7 * ring5.n ≤ fuel →
        peel (buildP2 ring5.n ring5.L ring5.R) fuel
          (initO ring5.n (buildP2 ring5.n ring5.L ring5.R)) = some r) ∧
      r.Q = [] ∧
      (∀ x, x < ring5.n → rd r.SEEN x ≠ 0) ∧
      orderer ring5.n (buildP2 ring5.n ring5.L ring5.R) = some r.O ∧
      r.O.Perm (List.range ring5.n) ∧
      (∀ x, x < ring5.n → r.O.count x = 1) ∧
      r.O.length = ring5.n :=
  ⟨by decide, orderer_permutation ring5 (by decide)⟩

/-- C7, counterexample: on the five-node ring (well-formed, no self-proximity) the
order is `4, 3, 2, 1, 0`; when node 4 is scanned first, color 0 is not forbidden for it,
yet the Colorer assigns it color 12, which is not the smallest free index. -/
theorem smallest_free_color_counterexample :
    WellFormed ring5 ∧ NoSelf ring5 ∧
    orderer ring5.n (buildP2 ring5.n ring5.L ring5.R) = some ([] ++ 4 :: [3, 2, 1, 0]) ∧
    colorLoop (buildP2 ring5.n ring5.L ring5.R) [] (initC ring5.n) = some (initC ring5.n) ∧
    rd2 (badAtScan (buildP2 ring5.n ring5.L ring5.R) (initC ring5.n) 4) 4 0 = 0 ∧
    (colorStep (buildP2 ring5.n ring5.L ring5.R) (initC ring5.n) 4).map
      (fun s => rd s.COLOR 4) = some 12 ∧
    (finalColor ring5).map (fun COLOR => rd COLOR 4) = some 12 ∧
    ¬ (∀ d, d < 13 →
        rd2 (badAtScan (buildP2 ring5.n ring5.L ring5.R) (initC ring5.n) 4) 4 d = 0 →
        (12 : Int) ≤ d) := by
  decide

/-- C7, amended: on a well-formed instance without self-proximity, for every node `x`
of the order the Colorer reaches `x`, and the color it assigns to `x` is the largest
index `c` in `[0, 13)` that is not forbidden for `x` at the moment `x` is scanned; that
color is the one `x` has in the final `COLOR` array. -/
theorem largest_free_color (I : Instance) (hwf : WellFormed I) (hns : NoSelf I) :
    ∃ O COLOR, orderer I.n (buildP2 I.n I.L I.R) = some O ∧ finalColor I = some COLOR ∧
      ∀ pre x post, O = pre ++ x :: post →
        ∃ s s1, ∃ c : Nat, colorLoop (buildP2 I.n I.L I.R) pre (initC I.n) = some s ∧
          colorStep (buildP2 I.n I.L I.R) s x = some s1 ∧
          rd s1.COLOR x = (c : Int) ∧ rd COLOR x = (c : Int) ∧ c < 13 ∧
          rd2 (badAtScan (buildP2 I.n I.L I.R) s x) x c = 0 ∧
          ∀ d, c < d → d < 13 → rd2 (badAtScan (buildP2 I.n I.L I.R) s x) x d ≠ 0 := by
  have hP := shaped_buildP2 I hwf
  obtain ⟨O, sf, hO, hgood, hsf, _, hfin⟩ := pipeline I hwf hns
  refine ⟨O, sf.COLOR, hO, hfin, ?_⟩
  intro pre x post hsplit
  obtain ⟨s, hs, hinv⟩ := color_upto I.n _ hP O hgood (noSelf_nbrs I hns) pre (x :: post)
    hsplit
  have hx : x < I.n := (hgood.mem x).1 (by rw [hsplit]; simp)
  have hnd := hgood.nodup
  rw [hsplit] at hnd
  have hxpre : x ∉ pre := fun hc =>
    (List.nodup_append.1 hnd).2.2 hc (List.mem_cons_self _ _)
  have hxpost : x ∉ post := (List.nodup_cons.1 (List.nodup_append.1 hnd).2.1).1
  obtain ⟨c, s1, p⟩ := color_step I.n _ hP pre s x hinv hx hxpre (noSelf_nbrs I hns x hx)
    (hgood.late pre x post hsplit)
  refine ⟨s, s1, c, hs, p.run, p.color, ?_, p.lt, p.free, p.above⟩
  have hrest : colorLoop (buildP2 I.n I.L I.R) post s1 = some sf := by
    have h1 := hsf
    rw [hsplit, colorLoop_append, hs] at h1
    simp only [Option.bind, colorLoop, p.run] at h1
    exact h1
  rw [colorLoop_frame _ post s1 sf x hrest hxpost]
  exact p.color

/-- Witness of the amended C7 on the five-node ring. -/
theorem largest_free_color_witness :
    WellFormed ring5 ∧ NoSelf ring5 ∧
    ∃ O COLOR, orderer ring5.n (buildP2 ring5.n ring5.L ring5.R) = some O ∧
      finalColor ring5 = some COLOR ∧
      ∀ pre x post, O = pre ++ x :: post →
        ∃ s s1, ∃ c : Nat, colorLoop (buildP2 ring5.n ring5.L ring5.R) pre (initC ring5.n) = some s ∧
          colorStep (buildP2 ring5.n ring5.L ring5.R) s x = some s1 ∧
          rd s1.COLOR x = (c : Int) ∧ rd COLOR x = (c : Int) ∧ c < 13 ∧
          rd2 (badAtScan (buildP2 ring5.n ring5.L ring5.R) s x) x c = 0 ∧
          ∀ d, c < d → d < 13 →
            rd2 (badAtScan (buildP2 ring5.n ring5.L ring5.R) s x) x d ≠ 0 :=
  ⟨by decide, by decide, largest_free_color ring5 (by decide) (by decide)⟩

/-- C8: on a well-formed instance without self-proximity the solver answers with a
string of exactly `n` characters whose `i`-th character is the `COLOR[i]`-th letter of
the palette `ACDEHIJKMORST`; the 13 palette letters are pairwise distinct, and for every
node `i` and every `y` in `ProximitySet(i)` the characters at positions `i` and `y`
differ. -/
theorem rendered_answer (I : Instance) (hwf : WellFormed I) (hns : NoSelf I) :
    ∃ COLOR str, finalColor I = some COLOR ∧ solve I = some (Answer.coloring str) ∧
      str.length = I.n ∧
      (∀ i, i < I.n → ∃ c : Nat, c < 13 ∧ rd COLOR i = (c : Int) ∧ ∃ a, str[i]? = some a ∧
        colors[c]? = some a) ∧
      colors = ['A', 'C', 'D', 'E', 'H', 'I', 'J', 'K', 'M', 'O', 'R', 'S', 'T'] ∧
      colors.length = 13 ∧ colors.Nodup ∧
      ∀ i, i < I.n → ∀ y ∈ ProximitySet I i,
        ∃ a b, str[i]? = some a ∧ str[y]? = some b ∧ a ≠ b := by
  obtain ⟨C, hC, _, hrange, hvalid⟩ := final_facts I hwf hns
  have hs : solve I = some (Answer.coloring (render I.n C)) := by
    rw [solve_feasible I (feasible_of_noSelf I hns), hC]
    rfl
  refine ⟨C, render I.n C, hC, hs, render_length _ _, ?_, by decide, by decide, by decide, ?_⟩
  · intro i hi
    obtain ⟨h0, h13⟩ := hrange i hi
    refine ⟨(rd C i).toNat, by omega, by omega, _, render_get I.n C i hi, ?_⟩
    exact colors_get _ (by omega)
  · intro i hi y hy
    have hyn : y < I.n := p2row_lt I hwf i hi y hy
    refine ⟨_, _, render_get I.n C i hi, render_get I.n C y hyn, ?_⟩
    intro e
    obtain ⟨h0, h13⟩ := hrange i hi
    obtain ⟨g0, g13⟩ := hrange y hyn
    have := colors_inj _ (by omega) _ (by omega) e
    exact hvalid i hi y hy (by omega)

/-- Witness of C8 on the five-node ring. -/
theorem rendered_answer_witness :
    WellFormed ring5 ∧ NoSelf ring5 ∧
    ∃ COLOR str, finalColor ring5 = some COLOR ∧ solve ring5 = some (Answer.coloring str) ∧
      str.length = ring5.n ∧
      (∀ i, i < ring5.n → ∃ c : Nat, c < 13 ∧ rd COLOR i = (c : Int) ∧ ∃ a, str[i]? = some a ∧
        colors[c]? = some a) ∧
      colors = ['A', 'C', 'D', 'E', 'H', 'I', 'J', 'K', 'M', 'O', 'R', 'S', 'T'] ∧
      colors.length = 13 ∧ colors.Nodup ∧
      ∀ i, i < ring5.n → ∀ y ∈ ProximitySet ring5 i,
        ∃ a b, str[i]? = some a ∧ str[y]? = some b ∧ a ≠ b :=
  ⟨by decide, by decide, rendered_answer ring5 (by decide) (by decide)⟩

/-- C9: for every node `i` of an instance the row `P2[i]` built by the Neighborhood
Builder has exactly 6 entries, in the order `L(i)`, `L(L(i))`, `R(L(i))`, `R(i)`,
`L(R(i))`, `R(R(i))`, and a node `y` occurs in it exactly when `y` is reached from `i` by
a path of exactly one or exactly two `L`/`R` edges. -/
theorem p2_meaning (I : Instance) (hwf : WellFormed I) (i : Nat) (hi : i < I.n) :
    nbrs (buildP2 I.n I.L I.R) i =
      [nd I.L i, nd I.L (nd I.L i), nd I.R (nd I.L i),
        nd I.R i, nd I.L (nd I.R i), nd I.R (nd I.R i)] ∧
    (nbrs (buildP2 I.n I.L I.R) i).length = 6 ∧
    (∀ y ∈ nbrs (buildP2 I.n I.L I.R) i, y < I.n) ∧
    ∀ y, y ∈ nbrs (buildP2 I.n I.L I.R) i ↔ Reach12 I i y := by
  have hrow := nbrs_buildP2 I.n I.L I.R i hi
  refine ⟨hrow, by rw [hrow]; rfl, ?_, ?_⟩
  · intro y hy
    rw [hrow] at hy
    exact p2row_lt I hwf i hi y hy
  · intro y
    rw [hrow]
    simp only [p2row, List.mem_cons, List.mem_singleton, List.not_mem_nil, or_false,
      Reach12, Edge]
    constructor
    · rintro (h | h | h | h | h | h)
      · exact Or.inl (Or.inl h)
      · exact Or.inr ⟨_, Or.inl rfl, Or.inl h⟩
      · exact Or.inr ⟨_, Or.inl rfl, Or.inr h⟩
      · exact Or.inl (Or.inr h)
      · exact Or.inr ⟨_, Or.inr rfl, Or.inl h⟩
      · exact Or.inr ⟨_, Or.inr rfl, Or.inr h⟩
    · rintro ((h | h) | ⟨m, (hm | hm), (h | h)⟩)
      · exact Or.inl h
      · exact Or.inr (Or.inr (Or.inr (Or.inl h)))
      · subst hm
        exact Or.inr (Or.inl h)
      · subst hm
        exact Or.inr (Or.inr (Or.inl h))
      · subst hm
        exact Or.inr (Or.inr (Or.inr (Or.inr (Or.inl h))))
      · subst hm
        exact Or.inr (Or.inr (Or.inr (Or.inr (Or.inr h))))

/-- Witness of C9 at node 3 of the five-node ring. -/
theorem p2_meaning_witness :
    WellFormed ring5 ∧ 3 < ring5.n ∧
    nbrs (buildP2 ring5.n ring5.L ring5.R) 3 = [4, 0, 1, 0, 1, 2] ∧
    (∀ y, y ∈ nbrs (buildP2 ring5.n ring5.L ring5.R) 3 ↔ Reach12 ring5 3 y) :=
  ⟨by decide, by decide, (p2_meaning ring5 (by decide) 3 (by decide)).1,
    (p2_meaning ring5 (by decide) 3 (by decide)).2.2.2⟩

/-- C10: a well-formed instance with `n = 1` has `L = [0]` and `R = [0]`, its
`ProximitySet(0)` (and the row `P2[0]`) is six copies of node 0, and the verdict is
IMPOSSIBLE. -/
theorem singleton_impossible (I : Instance) (hwf : WellFormed I) (h1 : I.n = 1) :
    I.L = [0] ∧ I.R = [0] ∧ ProximitySet I 0 = [0, 0, 0, 0, 0, 0] ∧
    nbrs (buildP2 I.n I.L I.R) 0 = [0, 0, 0, 0, 0, 0] ∧
    feasible I.n (buildP2 I.n I.L I.R) = false ∧
    solve I = some Answer.impossible := by
  obtain ⟨n, L, R⟩ := I
  obtain ⟨_, hL, hR, hLv, hRv⟩ := hwf
  dsimp only at h1 hL hR hLv hRv ⊢
  subst h1
  have one : ∀ v : List Nat, v.length = 1 → (∀ x ∈ v, x < 1) → v = [0] := by
    intro v hlen hv
    match v, hlen, hv with
    | [a], _, hv =>
      have := hv a (List.mem_singleton.2 rfl)
      have : a = 0 := by omega
      rw [this]
  rw [one L hL hLv, one R hR hRv]
  decide

/-- Witness of C10 on Scenario A. -/
theorem singleton_impossible_witness :
    WellFormed single ∧ single.n = 1 ∧
    (single.L = [0] ∧ single.R = [0] ∧ ProximitySet single 0 = [0, 0, 0, 0, 0, 0] ∧
    nbrs (buildP2 single.n single.L single.R) 0 = [0, 0, 0, 0, 0, 0] ∧
    feasible single.n (buildP2 single.n single.L single.R) = false ∧
    solve single = some Answer.impossible) :=
  ⟨by decide, rfl, singleton_impossible single (by decide) rfl⟩

/-! ## The incidence count -/

theorem sum_count_eq (l : List Nat) (n : Nat) (hl : ∀ x ∈ l, x < n) :
    ∑ y ∈ Finset.range n, l.count y = l.length := by
  induction l with
  | nil => simp
  | cons a t ih =>
    have ha : a ∈ Finset.range n := Finset.mem_range.2 (hl a (List.mem_cons_self _ _))
    have ht := ih (fun x hx => hl x (List.mem_cons_of_mem _ hx))
    have h1 : ∀ y, (a :: t).count y = t.count y + (if a = y then 1 else 0) := by
      intro y
      rw [List.count_cons]
      simp
    simp only [h1, Finset.sum_add_distrib, Finset.sum_ite_eq, List.length_cons, ht, ha,
      if_true]

theorem list_sum_eq (l : List Int) : l.sum = ∑ i ∈ Finset.range l.length, rd l i := by
  induction l with
  | nil => simp
  | cons a t ih =>
    rw [List.sum_cons, List.length_cons, Finset.sum_range_succ', ih]
    have h0 : rd (a :: t) 0 = a := rfl
    have hs : ∀ i, rd (a :: t) (i + 1) = rd t i := fun i => rfl
    simp only [h0, hs]
    ring

theorem sum_initIN (n : Nat) (P2 : List (List Nat)) (hP : Shaped n P2) :
    (initIN n P2).sum = 6 * (n : Int) := by
  rw [list_sum_eq, length_initIN P2 n hP.lt]
  have h1 : ∀ y ∈ Finset.range n, rd (initIN n P2) y = ((occ P2 (Finset.range n) y : Nat) : Int) :=
    fun y hy => rd_initIN P2 n hP.lt y (Finset.mem_range.1 hy)
  rw [Finset.sum_congr rfl h1, ← Nat.cast_sum]
  have h2 : ∑ y ∈ Finset.range n, occ P2 (Finset.range n) y = 6 * n := by
    unfold occ
    rw [Finset.sum_comm]
    have h3 : ∀ z ∈ Finset.range n, ∑ y ∈ Finset.range n, List.count y (nbrs P2 z) = 6 := by
      intro z hz
      rw [sum_count_eq _ n (hP.lt z (Finset.mem_range.1 hz))]
      exact hP.len z (Finset.mem_range.1 hz)
    rw [Finset.sum_congr rfl h3]
    simp [mul_comm]
  rw [h2]
  push_cast
  ring

theorem exists_low_indegree (n : Nat) (hn : 1 ≤ n) (P2 : List (List Nat))
    (hP : Shaped n P2) : ∃ y, y < n ∧ rd (initIN n P2) y ≤ 6 := by
  by_contra hc
  have hbig : ∀ y ∈ Finset.range n, (7 : Int) ≤ rd (initIN n P2) y := by
    intro y hy
    by_contra h7
    exact hc ⟨y, Finset.mem_range.1 hy, by omega⟩
  have h1 := Finset.sum_le_sum hbig
  have h2 := sum_initIN n P2 hP
  rw [list_sum_eq, length_initIN P2 n hP.lt] at h2
  rw [h2] at h1
  simp only [Finset.sum_const, Finset.card_range, nsmul_eq_mul] at h1
  omega

/-! ## The states of the peeling loop -/

theorem popStep_ok (n : Nat) (P2 : List (List Nat)) (hP : Shaped n P2) (s : OState)
    (h : OInv n P2 s) : ∃ s1, popStep P2 s = some s1 ∧ OInv n P2 s1 := by
  cases hQ : s.Q with
  | nil => exact ⟨s, by simp [popStep, hQ], h⟩
  | cons x Q1 =>
    by_cases hseen : rd s.SEEN x ≠ 0
    · exact ⟨_, by simp only [popStep, hQ, if_pos hseen], (oinv_skip n P2 s x Q1 h hQ hseen).1⟩
    · obtain ⟨s1, hf, h1, _⟩ := oinv_finalize n P2 hP s x Q1 h hQ hseen
      exact ⟨s1, by simp only [popStep, hQ, if_neg hseen]; exact hf, h1⟩

theorem peelN_ok (n : Nat) (P2 : List (List Nat)) (hP : Shaped n P2) (k : Nat) :
    ∀ s, OInv n P2 s → ∃ s1, peelN P2 k s = some s1 ∧ OInv n P2 s1 := by
  induction k with
  | zero =>
    intro s h
    exact ⟨s, rfl, h⟩
  | succ k ih =>
    intro s h
    obtain ⟨s1, hs1, h1⟩ := popStep_ok n P2 hP s h
    obtain ⟨s2, hs2, h2⟩ := ih s1 h1
    exact ⟨s2, by simp only [peelN, hs1]; exact hs2, h2⟩

theorem peel_eq_peelN (P2 : List (List Nat)) (fuel : Nat) :
    ∀ s r, peel P2 fuel s = some r → peelN P2 fuel s = some r := by
  induction fuel with
  | zero =>
    intro s r h
    cases hQ : s.Q with
    | nil =>
      simp only [peel, hQ, if_true] at h
      simp only [peelN]
      exact h
    | cons x Q1 => simp [peel, hQ] at h
  | succ fuel ih =>
    intro s r h
    have hstay : ∀ k t, t.Q = [] → peelN P2 k t = some t := by
      intro k
      induction k with
      | zero => intro t _; rfl
      | succ k ihk =>
        intro t ht
        simp only [peelN, popStep, ht]
        exact ihk t ht
    cases hQ : s.Q with
    | nil =>
      simp only [peel, hQ] at h
      cases h
      exact hstay _ s hQ
    | cons x Q1 =>
      rw [peel] at h
      simp only [hQ] at h
      by_cases hseen : rd s.SEEN x ≠ 0
      · rw [if_pos hseen] at h
        simp only [peelN, popStep, hQ, if_pos hseen]
        exact ih _ r h
      · rw [if_neg hseen] at h
        cases hf : finalize P2 { s with Q := Q1 } x with
        | none =>
          rw [hf] at h
          cases h
        | some s1 =>
          rw [hf] at h
          simp only [peelN, popStep, hQ, if_neg hseen, hf]
          exact ih _ r h

theorem filter_map_sum (l : List Nat) (p : Nat → Bool) (f : Nat → Nat) :
    ((l.filter p).map f).sum = (l.map (fun z => if p z = true then f z else 0)).sum := by
  induction l with
  | nil => rfl
  | cons a t ih =>
    by_cases ha : p a = true
    · rw [List.filter_cons_of_pos ha]
      simp [ha, ih]
    · rw [List.filter_cons_of_neg ha]
      simp [ha, ih]

theorem pairsInto_eq (n : Nat) (P2 : List (List Nat)) (s : OState) (h : OInv n P2 s)
    (y : Nat) : pairsInto n P2 s.SEEN y = occ P2 (unseen n s.O) y := by
  unfold pairsInto occ unseen
  rw [filter_map_sum, Finset.sum_filter]
  show ∑ z ∈ Finset.range n, _ = _
  apply Finset.sum_congr rfl
  intro z hz
  have hz1 := Finset.mem_range.1 hz
  have := h.seen_iff z hz1
  by_cases hO : z ∈ s.O
  · have hne : rd s.SEEN z ≠ 0 := this.2 hO
    simp [hO, hne]
  · have he : rd s.SEEN z = 0 := by
      by_contra hc
      exact hO (this.1 hc)
    simp [hO, he]

/-! ## The order is the reversed finalization sequence -/

theorem fold_relax_O (ys : List Nat) (s : OState) : (ys.foldl relax s).O = s.O := by
  induction ys generalizing s with
  | nil => rfl
  | cons a t ih => rw [List.foldl_cons, ih, relax_O]

theorem finalize_O (P2 : List (List Nat)) (s s1 : OState) (x : Nat)
    (h : finalize P2 s x = some s1) : s1.O = x :: s.O := by
  unfold finalize at h
  split_ifs at h
  cases h
  exact fold_relax_O _ _

theorem peel_finalizedSeq (P2 : List (List Nat)) (fuel : Nat) :
    ∀ s r, peel P2 fuel s = some r → r.O = (finalizedSeq P2 fuel s).reverse ++ s.O := by
  induction fuel with
  | zero =>
    intro s r h
    cases hQ : s.Q with
    | nil =>
      simp only [peel, hQ, if_true] at h
      cases h
      simp [finalizedSeq]
    | cons x Q1 => simp [peel, hQ] at h
  | succ fuel ih =>
    intro s r h
    cases hQ : s.Q with
    | nil =>
      simp only [peel, hQ] at h
      cases h
      simp [finalizedSeq, hQ]
    | cons x Q1 =>
      rw [peel] at h
      rw [finalizedSeq]
      simp only [hQ] at h ⊢
      by_cases hseen : rd s.SEEN x ≠ 0
      · rw [if_pos hseen] at h ⊢
        exact ih _ r h
      · rw [if_neg hseen] at h ⊢
        cases hf : finalize P2 { s with Q := Q1 } x with
        | none =>
          rw [hf] at h
          cases h
        | some s1 =>
          rw [hf] at h
          rw [ih s1 r h, finalize_O P2 _ s1 x hf]
          simp

theorem head_filter_range (n : Nat) (p : Nat → Bool) (m : Nat) (rest : List Nat)
    (h : (List.range n).filter p = m :: rest) :
    p m = true ∧ m < n ∧ ∀ j, j < m → p j = false := by
  have hm : m ∈ (List.range n).filter p := by rw [h]; exact List.mem_cons_self _ _
  obtain ⟨hm1, hm2⟩ := List.mem_filter.1 hm
  refine ⟨hm2, List.mem_range.1 hm1, ?_⟩
  intro j hj
  by_contra hc
  have hpj : p j = true := by simpa using hc
  have hjn : j < n := lt_trans hj (List.mem_range.1 hm1)
  have hjm : j ∈ (List.range n).filter p := List.mem_filter.2 ⟨List.mem_range.2 hjn, hpj⟩
  have hsorted : ((List.range n).filter p).Pairwise (· < ·) :=
    List.Pairwise.filter _ (List.pairwise_lt_range n)
  rw [h] at hjm hsorted
  rcases List.mem_cons.1 hjm with e | e
  · omega
  · have := (List.pairwise_cons.1 hsorted).1 j e
    omega

/-! ## Counting the pushes -/

theorem finalize_eq (P2 : List (List Nat)) (s : OState) (x : Nat) (h : rd s.IN x ≤ 6) :
    finalize P2 s x = some ((nbrs P2 x).foldl relax
      { s with SEEN := wr s.SEEN x 1, O := x :: s.O }) := by
  unfold finalize
  exact if_pos h

theorem fold_relax_Q (n : Nat) (ys : List Nat) (hys : ∀ y ∈ ys, y < n) (s : OState)
    (hlen : s.IN.length = n) : (ys.foldl relax s).Q = s.Q ++ pushedBy s ys := by
  induction ys generalizing s with
  | nil => simp [pushedBy]
  | cons a t ih =>
    have ha : a < n := hys a (List.mem_cons_self _ _)
    have ht : ∀ y ∈ t, y < n := fun y hy => hys y (List.mem_cons_of_mem _ hy)
    have hlen1 : (relax s a).IN.length = n := by rw [relax_IN, length_wr]; exact hlen
    rw [List.foldl_cons, ih ht (relax s a) hlen1, relax_Q s a (by omega), pushedBy]
    split_ifs <;> simp

theorem pushedBy_mem (ys : List Nat) (s : OState) (y : Nat) (h : y ∈ pushedBy s ys) :
    y ∈ ys := by
  induction ys generalizing s with
  | nil => simp [pushedBy] at h
  | cons a t ih =>
    rw [pushedBy] at h
    split_ifs at h
    · rcases List.mem_cons.1 h with e | e
      · rw [e]; exact List.mem_cons_self _ _
      · exact List.mem_cons_of_mem _ (ih _ e)
    · exact List.mem_cons_of_mem _ (ih _ h)

theorem pot_step (v : Int) (h : 1 ≤ v) :
    (if v - 1 ≤ 6 then 1 else 0) + pot (v - 1) ≤ pot v := by
  unfold pot
  split_ifs <;> omega

theorem pushedBy_pot (n : Nat) (y : Nat) (ys : List Nat) (hys : ∀ z ∈ ys, z < n)
    (s : OState) (hlen : s.IN.length = n) (hge : (ys.count y : Int) ≤ rd s.IN y) :
    (pushedBy s ys).count y + pot (rd s.IN y - ys.count y) ≤ pot (rd s.IN y) := by
  induction ys generalizing s with
  | nil => simp [pushedBy]
  | cons a t ih =>
    have ha : a < n := hys a (List.mem_cons_self _ _)
    have ht : ∀ z ∈ t, z < n := fun z hz => hys z (List.mem_cons_of_mem _ hz)
    have hlen1 : (relax s a).IN.length = n := by rw [relax_IN, length_wr]; exact hlen
    rw [List.count_cons] at hge ⊢
    by_cases hay : a = y
    · subst hay
      have hrd : rd (relax s a).IN a = rd s.IN a - 1 := by
        rw [relax_IN, rd_wr_same _ _ _ (by omega)]
      simp only [beq_self_eq_true, if_true, Nat.cast_add, Nat.cast_one] at hge ⊢
      have hih := ih ht (relax s a) hlen1 (by rw [hrd]; omega)
      rw [hrd] at hih
      have hstep := pot_step (rd s.IN a) (by omega)
      have e : rd s.IN a - ((List.count a t : Nat) + 1 : Int)
          = rd s.IN a - 1 - (List.count a t : Nat) := by ring
      rw [e, pushedBy]
      split_ifs with hc
      · rw [if_pos hc] at hstep
        rw [List.count_cons_self]
        omega
      · rw [if_neg hc] at hstep
        omega
    · have hrd : rd (relax s a).IN y = rd s.IN y := by
        rw [relax_IN, rd_wr_other _ _ _ _ hay]
      have hbeq : (a == y) = false := by simpa using hay
      simp only [hbeq, Bool.false_eq_true, if_false, Nat.add_zero] at hge ⊢
      have hih := ih ht (relax s a) hlen1 (by rw [hrd]; exact hge)
      rw [hrd] at hih
      rw [pushedBy]
      split_ifs
      · rw [List.count_cons_of_ne (fun e => hay e.symm)]
        exact hih
      · exact hih

theorem pushLog_count (n : Nat) (P2 : List (List Nat)) (hP : Shaped n P2) (fuel : Nat) :
    ∀ s, OInv n P2 s → ∀ y, y < n → (pushLog P2 fuel s).count y ≤ pot (rd s.IN y) := by
  induction fuel with
  | zero =>
    intro s _ y _
    simp [pushLog]
  | succ fuel ih =>
    intro s h y hy
    cases hQ : s.Q with
    | nil => simp [pushLog, hQ]
    | cons x Q1 =>
      rw [pushLog]
      simp only [hQ]
      by_cases hseen : rd s.SEEN x ≠ 0
      · rw [if_pos hseen]
        exact ih _ (oinv_skip n P2 s x Q1 h hQ hseen).1 y hy
      · rw [if_neg hseen]
        obtain ⟨hx, hx6⟩ := h.Q_ok x (by rw [hQ]; exact List.mem_cons_self _ _)
        obtain ⟨s1, hf, h1, _⟩ := oinv_finalize n P2 hP s x Q1 h hQ hseen
        have hf2 := finalize_eq P2 { s with Q := Q1 } x hx6
        rw [hf2] at hf
        have hs1 := Option.some.inj hf
        rw [hf2]
        dsimp only at hs1 ⊢
        rw [hs1, List.count_append]
        have p := relax_fold n (nbrs P2 x) (hP.lt x hx)
          { IN := s.IN, Q := Q1, SEEN := wr s.SEEN x 1, O := x :: s.O } h.lenIN
        rw [hs1] at p
        have hinv := p.inv y
        dsimp only at hinv
        have hnonneg : (0 : Int) ≤ rd s1.IN y := by
          rw [h1.in_eq y hy]
          exact Int.natCast_nonneg _
        have hpb := pushedBy_pot n y (nbrs P2 x) (hP.lt x hx)
          { IN := s.IN, Q := Q1, SEEN := wr s.SEEN x 1, O := x :: s.O } h.lenIN
          (by dsimp only; omega)
        dsimp only at hpb
        rw [← hinv] at hpb
        have := ih s1 h1 y hy
        omega

theorem pushLog_lt (n : Nat) (P2 : List (List Nat)) (hP : Shaped n P2) (fuel : Nat) :
    ∀ s, OInv n P2 s → ∀ y ∈ pushLog P2 fuel s, y < n := by
  induction fuel with
  | zero =>
    intro s _ y hy
    simp [pushLog] at hy
  | succ fuel ih =>
    intro s h y hy
    cases hQ : s.Q with
    | nil => simp [pushLog, hQ] at hy
    | cons x Q1 =>
      rw [pushLog] at hy
      simp only [hQ] at hy
      by_cases hseen : rd s.SEEN x ≠ 0
      · rw [if_pos hseen] at hy
        exact ih _ (oinv_skip n P2 s x Q1 h hQ hseen).1 y hy
      · rw [if_neg hseen] at hy
        obtain ⟨hx, hx6⟩ := h.Q_ok x (by rw [hQ]; exact List.mem_cons_self _ _)
        obtain ⟨s1, hf, h1, _⟩ := oinv_finalize n P2 hP s x Q1 h hQ hseen
        rw [hf] at hy
        dsimp only at hy
        rcases List.mem_append.1 hy with e | e
        · exact hP.lt x hx y (pushedBy_mem _ _ y e)
        · exact ih s1 h1 y e

theorem popped_eq_pushed (n : Nat) (P2 : List (List Nat)) (hP : Shaped n P2) (fuel : Nat) :
    ∀ s r, OInv n P2 s → peel P2 fuel s = some r →
      poppedSeq P2 fuel s = s.Q ++ pushLog P2 fuel s := by
  induction fuel with
  | zero =>
    intro s r _ hr
    cases hQ : s.Q with
    | nil => simp [poppedSeq, pushLog]
    | cons x Q1 => simp [peel, hQ] at hr
  | succ fuel ih =>
    intro s r h hr
    cases hQ : s.Q with
    | nil => simp [poppedSeq, pushLog, hQ]
    | cons x Q1 =>
      rw [peel] at hr
      rw [poppedSeq, pushLog]
      simp only [hQ] at hr ⊢
      by_cases hseen : rd s.SEEN x ≠ 0
      · simp only [if_pos hseen] at hr ⊢
        rw [ih _ r (oinv_skip n P2 s x Q1 h hQ hseen).1 hr]
        simp
      · simp only [if_neg hseen] at hr ⊢
        obtain ⟨hx, hx6⟩ := h.Q_ok x (by rw [hQ]; exact List.mem_cons_self _ _)
        obtain ⟨s1, hf, h1, _⟩ := oinv_finalize n P2 hP s x Q1 h hQ hseen
        rw [hf] at hr ⊢
        dsimp only at hr ⊢
        rw [ih s1 r h1 hr]
        have hf2 := finalize_eq P2 { s with Q := Q1 } x hx6
        rw [hf2] at hf
        have hs1 := Option.some.inj hf
        have hq := fold_relax_Q n (nbrs P2 x) (hP.lt x hx)
          { IN := s.IN, Q := Q1, SEEN := wr s.SEEN x 1, O := x :: s.O } h.lenIN
        dsimp only at hs1 hq
        rw [hs1] at hq
        rw [hq]
        simp

theorem count_seedQ (n : Nat) (IN : List Int) (y : Nat) :
    (seedQ n IN).count y + pot (rd IN y) ≤ 7 := by
  have hnd : (seedQ n IN).Nodup := by
    rw [seedQ_eq]
    exact (List.nodup_range n).filter _
  have h1 : (seedQ n IN).count y ≤ 1 := List.nodup_iff_count_le_one.1 hnd y
  by_cases hmem : y ∈ seedQ n IN
  · have h6 := ((mem_seedQ n IN y).1 hmem).2
    unfold pot
    omega
  · rw [List.count_eq_zero_of_not_mem hmem]
    unfold pot
    omega

theorem length_le_of_count (l : List Nat) (n b : Nat) (hl : ∀ x ∈ l, x < n)
    (hc : ∀ y, y < n → l.count y ≤ b) : l.length ≤ b * n := by
  rw [← sum_count_eq l n hl]
  calc ∑ y ∈ Finset.range n, l.count y ≤ ∑ _y ∈ Finset.range n, b :=
        Finset.sum_le_sum (fun y hy => hc y (Finset.mem_range.1 hy))
    _ = b * n := by simp [mul_comm]

/-! ## Counting neighbors -/

theorem filter_or_le (l : List Nat) (r p q : Nat → Bool)
    (h : ∀ y, r y = true → p y = true ∨ q y = true) :
    (l.filter r).length ≤ (l.filter p).length + (l.filter q).length := by
  induction l with
  | nil => simp
  | cons a t ih =>
    by_cases hr : r a = true
    · rw [List.filter_cons_of_pos hr, List.length_cons]
      rcases h a hr with hp | hq
      · rw [List.filter_cons_of_pos hp, List.length_cons]
        have := List.length_filter_le q t
        by_cases hq : q a = true
        · rw [List.filter_cons_of_pos hq, List.length_cons]
          omega
        · rw [List.filter_cons_of_neg hq]
          omega
      · rw [List.filter_cons_of_pos hq, List.length_cons]
        by_cases hp : p a = true
        · rw [List.filter_cons_of_pos hp, List.length_cons]
          omega
        · rw [List.filter_cons_of_neg hp]
          omega
    · rw [List.filter_cons_of_neg hr]
      have h1 : (t.filter p).length ≤ ((a :: t).filter p).length := by
        by_cases hp : p a = true
        · rw [List.filter_cons_of_pos hp, List.length_cons]
          omega
        · rw [List.filter_cons_of_neg hp]
      have h2 : (t.filter q).length ≤ ((a :: t).filter q).length := by
        by_cases hq : q a = true
        · rw [List.filter_cons_of_pos hq, List.length_cons]
          omega
        · rw [List.filter_cons_of_neg hq]
      omega

theorem nodup_filter_mem_le (l m : List Nat) (hl : l.Nodup) :
    (l.filter (fun y => decide (y ∈ m))).length ≤ m.length := by
  have hnd : (l.filter (fun y => decide (y ∈ m))).Nodup := hl.filter _
  have hsub : l.filter (fun y => decide (y ∈ m)) ⊆ m := by
    intro y hy
    have := (List.mem_filter.1 hy).2
    simpa using this
  exact (List.Nodup.subperm hnd hsub).length_le

/-- Among the distinct nodes of `l`, those that are neighbors of `x` in either direction
number at most the length of the row of `x` plus the occurrences of `x` in the rows of
the nodes of `l`. -/
theorem neighbors_le (P2 : List (List Nat)) (l : List Nat) (hl : l.Nodup) (x : Nat) :
    (l.filter (fun y => decide (y ∈ nbrs P2 x ∨ x ∈ nbrs P2 y))).length
      ≤ (nbrs P2 x).length + occL P2 l x := by
  have h1 := filter_or_le l (fun y => decide (y ∈ nbrs P2 x ∨ x ∈ nbrs P2 y))
    (fun y => decide (y ∈ nbrs P2 x)) (fun y => decide (x ∈ nbrs P2 y)) (by
      intro y hy
      simpa using hy)
  have h2 := nodup_filter_mem_le l (nbrs P2 x) hl
  have h3 := filter_le_occL P2 l x
  omega

theorem unseenList_nodup (n : Nat) (SEEN : List Int) (x : Nat) :
    ((List.range n).filter (fun y => decide (rd SEEN y = 0 ∧ y ≠ x))).Nodup :=
  (List.nodup_range n).filter _

theorem occL_filter_le (P2 : List (List Nat)) (l : List Nat) (p : Nat → Bool) (x : Nat) :
    occL P2 (l.filter p) x ≤ occL P2 l x := by
  induction l with
  | nil => simp
  | cons a t ih =>
    by_cases hp : p a = true
    · rw [List.filter_cons_of_pos hp]
      simp only [occL, List.map_cons, List.sum_cons] at ih ⊢
      omega
    · rw [List.filter_cons_of_neg hp]
      simp only [occL, List.map_cons, List.sum_cons] at ih ⊢
      omega

theorem occL_unseen_le (n : Nat) (P2 : List (List Nat)) (SEEN : List Int) (x : Nat) :
    occL P2 ((List.range n).filter (fun y => decide (rd SEEN y = 0 ∧ y ≠ x))) x
      ≤ pairsInto n P2 SEEN x := by
  have e : (List.range n).filter (fun y => decide (rd SEEN y = 0 ∧ y ≠ x))
      = ((List.range n).filter (fun y => decide (rd SEEN y = 0))).filter
          (fun y => decide (y ≠ x)) := by
    rw [List.filter_filter]
    congr 1
    funext y
    simp [and_comm]
  rw [e]
  exact occL_filter_le P2 _ _ x

/-! ## The claims on the invariants of the two loops -/

set_option maxRecDepth 100000 in
/-- C11, counterexample: on the instance `tight13` (well-formed, no self-proximity) the
order ends with node 0, and when the Colorer scans the colors for node 0, after the nodes
before it were processed, 11 of the 13 entries of `BAD[0]` are set, more than 6. -/
theorem forbidden_at_most_six_counterexample :
    WellFormed tight13 ∧ NoSelf tight13 ∧
    orderer tight13.n (buildP2 tight13.n tight13.L tight13.R)
      = some ([9, 11, 12, 5, 10, 8, 7, 6, 4, 3, 2, 1] ++ 0 :: []) ∧
    (colorLoop (buildP2 tight13.n tight13.L tight13.R)
        [9, 11, 12, 5, 10, 8, 7, 6, 4, 3, 2, 1] (initC tight13.n)).map
      (fun s => ((List.range 13).filter (fun c => decide
        (rd2 (badAtScan (buildP2 tight13.n tight13.L tight13.R) s 0) 0 c ≠ 0))).length)
      = some 11 := by
  decide

/-- C11, amended: on a well-formed instance without self-proximity, for every node `x`
of the order, at the moment the Colorer chooses the color of `x` (after marking the
colors of the already colored members of `ProximitySet(x)`) at most 12 of the 13 entries
of `BAD[x]` are set. -/
theorem forbidden_at_most_twelve (I : Instance) (hwf : WellFormed I) (hns : NoSelf I) :
    ∃ O, orderer I.n (buildP2 I.n I.L I.R) = some O ∧
      ∀ pre x post, O = pre ++ x :: post →
        ∃ s, colorLoop (buildP2 I.n I.L I.R) pre (initC I.n) = some s ∧
          ((List.range 13).filter
            (fun c => decide (rd2 (badAtScan (buildP2 I.n I.L I.R) s x) x c ≠ 0))).length
              ≤ 12 := by
  have hP := shaped_buildP2 I hwf
  obtain ⟨O, hO, hgood⟩ := orderer_good I.n _ hP
  refine ⟨O, hO, ?_⟩
  intro pre x post hsplit
  obtain ⟨s, hs, hinv⟩ := color_upto I.n _ hP O hgood (noSelf_nbrs I hns) pre (x :: post)
    hsplit
  have hx : x < I.n := (hgood.mem x).1 (by rw [hsplit]; simp)
  have hxpre : x ∉ pre := by
    intro hc
    have hnd := hgood.nodup
    rw [hsplit] at hnd
    exact (List.nodup_append.1 hnd).2.2 hc (List.mem_cons_self _ _)
  obtain ⟨c, hc, hfree⟩ := scan_free I.n _ hP pre s x hinv hx hxpre
    (hgood.late pre x post hsplit)
  refine ⟨s, hs, ?_⟩
  have hlt : ((List.range 13).filter
      (fun c => decide (rd2 (badAtScan (buildP2 I.n I.L I.R) s x) x c ≠ 0))).length
        < (List.range 13).length := by
    rw [List.length_filter_lt_length_iff_exists]
    exact ⟨c, List.mem_range.2 hc, by simp [hfree]⟩
  rw [List.length_range] at hlt
  omega

/-- Witness of the amended C11 on the five-node ring. -/
theorem forbidden_at_most_twelve_witness :
    WellFormed ring5 ∧ NoSelf ring5 ∧
    ∃ O, orderer ring5.n (buildP2 ring5.n ring5.L ring5.R) = some O ∧
      ∀ pre x post, O = pre ++ x :: post →
        ∃ s, colorLoop (buildP2 ring5.n ring5.L ring5.R) pre (initC ring5.n) = some s ∧
          ((List.range 13).filter
            (fun c => decide
              (rd2 (badAtScan (buildP2 ring5.n ring5.L ring5.R) s x) x c ≠ 0))).length
              ≤ 12 :=
  ⟨by decide, by decide, forbidden_at_most_twelve ring5 (by decide) (by decide)⟩

set_option maxRecDepth 100000 in
/-- C12, counterexample: on the instance `wide13` (well-formed, no self-proximity) the
first node popped and finalized is node 2; at that moment no node is finalized and all
12 other nodes are neighbors of node 2 in one direction or the other. In the order, node
2 comes last, so when the Colorer colors it, 12 distinct neighbors are already
colored. -/
theorem six_neighbors_counterexample :
    WellFormed wide13 ∧ NoSelf wide13 ∧
    peelN (buildP2 wide13.n wide13.L wide13.R) 0
        (initO wide13.n (buildP2 wide13.n wide13.L wide13.R))
      = some (initO wide13.n (buildP2 wide13.n wide13.L wide13.R)) ∧
    (initO wide13.n (buildP2 wide13.n wide13.L wide13.R)).Q.head? = some 2 ∧
    rd (initO wide13.n (buildP2 wide13.n wide13.L wide13.R)).SEEN 2 = 0 ∧
    ((List.range wide13.n).filter (fun y => decide
      (rd (initO wide13.n (buildP2 wide13.n wide13.L wide13.R)).SEEN y = 0 ∧ y ≠ 2 ∧
        (y ∈ nbrs (buildP2 wide13.n wide13.L wide13.R) 2 ∨
          2 ∈ nbrs (buildP2 wide13.n wide13.L wide13.R) y)))).length = 12 ∧
    orderer wide13.n (buildP2 wide13.n wide13.L wide13.R)
      = some ([9, 11, 1, 10, 0, 3, 12, 8, 7, 6, 5, 4] ++ 2 :: []) ∧
    ([9, 11, 1, 10, 0, 3, 12, 8, 7, 6, 5, 4].filter (fun y => decide
      (y ∈ nbrs (buildP2 wide13.n wide13.L wide13.R) 2 ∨
        2 ∈ nbrs (buildP2 wide13.n wide13.L wide13.R) y))).length = 12 := by
  decide

/-- C12, amended: on a well-formed instance, whenever the Orderer is about to finalize a
node `x` (it is at the front of the queue and not `SEEN`), at most 12 distinct nodes `y`
other than `x` are not yet finalized and neighbors of `x` in either direction
(`y` in `ProximitySet(x)` or `x` in `ProximitySet(y)`); and for every node `x` of the
order at most 12 distinct neighbors of `x` stand before `x`, that is, are already
colored when the Colorer colors `x`. -/
theorem neighbors_at_most_twelve (I : Instance) (hwf : WellFormed I) :
    (∀ k, ∃ s, peelN (buildP2 I.n I.L I.R) k (initO I.n (buildP2 I.n I.L I.R)) = some s ∧
      ∀ x Q1, s.Q = x :: Q1 → rd s.SEEN x = 0 →
        ((List.range I.n).filter (fun y => decide (rd s.SEEN y = 0 ∧ y ≠ x ∧
          (y ∈ nbrs (buildP2 I.n I.L I.R) x ∨ x ∈ nbrs (buildP2 I.n I.L I.R) y)))).length
            ≤ 12) ∧
    ∃ O, orderer I.n (buildP2 I.n I.L I.R) = some O ∧
      ∀ pre x post, O = pre ++ x :: post →
        (pre.filter (fun y => decide
          (y ∈ nbrs (buildP2 I.n I.L I.R) x ∨ x ∈ nbrs (buildP2 I.n I.L I.R) y))).length
            ≤ 12 := by
  have hP := shaped_buildP2 I hwf
  constructor
  · intro k
    obtain ⟨s, hs, hinv⟩ := peelN_ok I.n _ hP k _ (oinv_init I.n _ hP)
    refine ⟨s, hs, ?_⟩
    intro x Q1 hQ _
    obtain ⟨hx, hx6⟩ := hinv.Q_ok x (by rw [hQ]; exact List.mem_cons_self _ _)
    have e : (List.range I.n).filter (fun y => decide (rd s.SEEN y = 0 ∧ y ≠ x ∧
          (y ∈ nbrs (buildP2 I.n I.L I.R) x ∨ x ∈ nbrs (buildP2 I.n I.L I.R) y)))
        = ((List.range I.n).filter (fun y => decide (rd s.SEEN y = 0 ∧ y ≠ x))).filter
          (fun y => decide
            (y ∈ nbrs (buildP2 I.n I.L I.R) x ∨ x ∈ nbrs (buildP2 I.n I.L I.R) y)) := by
      rw [List.filter_filter]
      congr 1
      funext y
      by_cases h1 : rd s.SEEN y = 0 <;> by_cases h2 : y = x <;>
        by_cases h3 : y ∈ nbrs (buildP2 I.n I.L I.R) x <;>
        by_cases h4 : x ∈ nbrs (buildP2 I.n I.L I.R) y <;> simp [h1, h2, h3, h4]
    rw [e]
    have h1 := neighbors_le (buildP2 I.n I.L I.R) _ (unseenList_nodup I.n s.SEEN x) x
    have h2 := occL_unseen_le I.n (buildP2 I.n I.L I.R) s.SEEN x
    have h3 := pairsInto_eq I.n _ s hinv x
    have h4 := hinv.in_eq x hx
    have h5 := hP.len x hx
    omega
  · obtain ⟨O, hO, hgood⟩ := orderer_good I.n _ hP
    refine ⟨O, hO, ?_⟩
    intro pre x post hsplit
    have hx : x < I.n := (hgood.mem x).1 (by rw [hsplit]; simp)
    have hnd := hgood.nodup
    rw [hsplit] at hnd
    have h1 := neighbors_le (buildP2 I.n I.L I.R) pre (List.nodup_append.1 hnd).1 x
    have h2 := hgood.late pre x post hsplit
    have h5 := hP.len x hx
    omega

/-- Witness of the amended C12 on the five-node ring. -/
theorem neighbors_at_most_twelve_witness :
    WellFormed ring5 ∧
    ((∀ k, ∃ s, peelN (buildP2 ring5.n ring5.L ring5.R) k
        (initO ring5.n (buildP2 ring5.n ring5.L ring5.R)) = some s ∧
      ∀ x Q1, s.Q = x :: Q1 → rd s.SEEN x = 0 →
        ((List.range ring5.n).filter (fun y => decide (rd s.SEEN y = 0 ∧ y ≠ x ∧
          (y ∈ nbrs (buildP2 ring5.n ring5.L ring5.R) x ∨
            x ∈ nbrs (buildP2 ring5.n ring5.L ring5.R) y)))).length ≤ 12) ∧
    ∃ O, orderer ring5.n (buildP2 ring5.n ring5.L ring5.R) = some O ∧
      ∀ pre x post, O = pre ++ x :: post →
        (pre.filter (fun y => decide
          (y ∈ nbrs (buildP2 ring5.n ring5.L ring5.R) x ∨
            x ∈ nbrs (buildP2 ring5.n ring5.L ring5.R) y))).length ≤ 12) :=
  ⟨by decide, neighbors_at_most_twelve ring5 (by decide)⟩

/-- C13: on a well-formed instance, after any number `k` of iterations of the peeling
loop, `IN[y]` equals the number of pairs `(z, k)` with `z` not yet finalized and
`P2[z][k] = y`, for every node `y`; whenever a node `x` is about to be finalized,
`IN[x] <= 6`, so the assertion holds and the finalization succeeds; the loop reaches its
end within `7 * n` iterations; and in the resulting order every node `x` occurs at most
6 times, with multiplicity, in the rows of the nodes placed (and colored) before it. -/
theorem indegree_at_finalization (I : Instance) (hwf : WellFormed I) :
    (∀ k, ∃ s, peelN (buildP2 I.n I.L I.R) k (initO I.n (buildP2 I.n I.L I.R)) = some s ∧
      (∀ y, y < I.n → rd s.IN y = (pairsInto I.n (buildP2 I.n I.L I.R) s.SEEN y : Nat)) ∧
      ∀ x Q1, s.Q = x :: Q1 → rd s.SEEN x = 0 →
        rd s.IN x ≤ 6 ∧
        (finalize (buildP2 I.n I.L I.R) { s with Q := Q1 } x).isSome = true) ∧
    ∃ r, peel (buildP2 I.n I.L I.R) (7 * I.n) (initO I.n (buildP2 I.n I.L I.R)) = some r ∧
      peelN (buildP2 I.n I.L I.R) (7 * I.n) (initO I.n (buildP2 I.n I.L I.R)) = some r ∧
      orderer I.n (buildP2 I.n I.L I.R) = some r.O ∧
      ∀ pre x post, r.O = pre ++ x :: post → occL (buildP2 I.n I.L I.R) pre x ≤ 6 := by
  have hP := shaped_buildP2 I hwf
  constructor
  · intro k
    obtain ⟨s, hs, hinv⟩ := peelN_ok I.n _ hP k _ (oinv_init I.n _ hP)
    refine ⟨s, hs, ?_, ?_⟩
    · intro y hy
      rw [hinv.in_eq y hy, pairsInto_eq I.n _ s hinv y]
    · intro x Q1 hQ _
      obtain ⟨_, hx6⟩ := hinv.Q_ok x (by rw [hQ]; exact List.mem_cons_self _ _)
      refine ⟨hx6, ?_⟩
      rw [finalize_eq _ { s with Q := Q1 } x hx6]
      rfl
  · obtain ⟨r, hr, hinv, _⟩ := peel_ok I.n _ hP (7 * I.n) _ (oinv_init I.n _ hP)
      (mu_init I.n _)
    refine ⟨r, hr, peel_eq_peelN _ _ _ r hr, by simp [orderer, hr], ?_⟩
    intro pre x post hsplit
    have := hinv.late pre x post hsplit
    omega

/-- Witness of C13 on the five-node ring. -/
theorem indegree_at_finalization_witness :
    WellFormed ring5 ∧
    ((∀ k, ∃ s, peelN (buildP2 ring5.n ring5.L ring5.R) k
        (initO ring5.n (buildP2 ring5.n ring5.L ring5.R)) = some s ∧
      (∀ y, y < ring5.n →
        rd s.IN y = (pairsInto ring5.n (buildP2 ring5.n ring5.L ring5.R) s.SEEN y : Nat)) ∧
      ∀ x Q1, s.Q = x :: Q1 → rd s.SEEN x = 0 →
        rd s.IN x ≤ 6 ∧
        (finalize (buildP2 ring5.n ring5.L ring5.R) { s with Q := Q1 } x).isSome = true) ∧
    ∃ r, peel (buildP2 ring5.n ring5.L ring5.R) (7 * ring5.n)
        (initO ring5.n (buildP2 ring5.n ring5.L ring5.R)) = some r ∧
      peelN (buildP2 ring5.n ring5.L ring5.R) (7 * ring5.n)
        (initO ring5.n (buildP2 ring5.n ring5.L ring5.R)) = some r ∧
      orderer ring5.n (buildP2 ring5.n ring5.L ring5.R) = some r.O ∧
      ∀ pre x post, r.O = pre ++ x :: post →
        occL (buildP2 ring5.n ring5.L ring5.R) pre x ≤ 6) :=
  ⟨by decide, indegree_at_finalization ring5 (by decide)⟩

/-- C14: on a well-formed instance without self-proximity, for every node `x` of the
order and every color `c < 13`, at the moment the Colorer chooses the color of `x` the
entry `BAD[x][c]` is set exactly when `c` is the color of some node `v` colored earlier
than `x` with `v` in `ProximitySet(x)` or `x` in `ProximitySet(v)`. -/
theorem bad_table_meaning (I : Instance) (hwf : WellFormed I) (hns : NoSelf I) :
    ∃ O, orderer I.n (buildP2 I.n I.L I.R) = some O ∧
      ∀ pre x post, O = pre ++ x :: post →
        ∃ s, colorLoop (buildP2 I.n I.L I.R) pre (initC I.n) = some s ∧
          ∀ c, c < 13 →
            (rd2 (badAtScan (buildP2 I.n I.L I.R) s x) x c ≠ 0 ↔
              ∃ v ∈ pre, (v ∈ ProximitySet I x ∨ x ∈ ProximitySet I v) ∧
                rd s.COLOR v = (c : Int)) := by
  have hP := shaped_buildP2 I hwf
  obtain ⟨O, hO, hgood⟩ := orderer_good I.n _ hP
  refine ⟨O, hO, ?_⟩
  intro pre x post hsplit
  obtain ⟨s, hs, hinv⟩ := color_upto I.n _ hP O hgood (noSelf_nbrs I hns) pre (x :: post)
    hsplit
  have hx : x < I.n := (hgood.mem x).1 (by rw [hsplit]; simp)
  have hxpre : x ∉ pre := by
    intro hc
    have hnd := hgood.nodup
    rw [hsplit] at hnd
    exact (List.nodup_append.1 hnd).2.2 hc (List.mem_cons_self _ _)
  have hpre : ∀ v ∈ pre, v < I.n := fun v hv => (hgood.mem v).1 (by rw [hsplit]; simp [hv])
  obtain ⟨_, _, m3⟩ := scan_iff I.n _ hP pre s x hinv hx hxpre
  refine ⟨s, hs, ?_⟩
  intro c hc
  rw [m3 c hc]
  unfold ProximitySet
  constructor
  · rintro (⟨u, hu, hxu, huc⟩ | ⟨y, hy, hyp, hyc⟩)
    · refine ⟨u, hu, Or.inr ?_, huc⟩
      rw [← nbrs_buildP2 _ _ _ _ (hpre u hu)]
      exact hxu
    · refine ⟨y, hyp, Or.inl ?_, hyc⟩
      rw [← nbrs_buildP2 _ _ _ _ hx]
      exact hy
  · rintro ⟨v, hv, hor, hvc⟩
    rcases hor with h | h
    · right
      refine ⟨v, ?_, hv, hvc⟩
      rw [nbrs_buildP2 _ _ _ _ hx]
      exact h
    · left
      refine ⟨v, hv, ?_, hvc⟩
      rw [nbrs_buildP2 _ _ _ _ (hpre v hv)]
      exact h

/-- Witness of C14 on the five-node ring. -/
theorem bad_table_meaning_witness :
    WellFormed ring5 ∧ NoSelf ring5 ∧
    ∃ O, orderer ring5.n (buildP2 ring5.n ring5.L ring5.R) = some O ∧
      ∀ pre x post, O = pre ++ x :: post →
        ∃ s, colorLoop (buildP2 ring5.n ring5.L ring5.R) pre (initC ring5.n) = some s ∧
          ∀ c, c < 13 →
            (rd2 (badAtScan (buildP2 ring5.n ring5.L ring5.R) s x) x c ≠ 0 ↔
              ∃ v ∈ pre, (v ∈ ProximitySet ring5 x ∨ x ∈ ProximitySet ring5 v) ∧
                rd s.COLOR v = (c : Int)) :=
  ⟨by decide, by decide, bad_table_meaning ring5 (by decide) (by decide)⟩

/-- C15: on a well-formed instance the order `O` handed to the Colorer is the exact
reverse of the sequence in which the nodes are finalized, and its last element, the node
colored last, is the first node finalized: the lowest-numbered node whose initial
in-degree is at most 6. -/
theorem order_direction (I : Instance) (hwf : WellFormed I) :
    ∃ r, peel (buildP2 I.n I.L I.R) (7 * I.n) (initO I.n (buildP2 I.n I.L I.R)) = some r ∧
      orderer I.n (buildP2 I.n I.L I.R) = some r.O ∧
      r.O = (finalizedSeq (buildP2 I.n I.L I.R) (7 * I.n)
        (initO I.n (buildP2 I.n I.L I.R))).reverse ∧
      ∃ m, r.O.getLast? = some m ∧
        (finalizedSeq (buildP2 I.n I.L I.R) (7 * I.n)
          (initO I.n (buildP2 I.n I.L I.R))).head? = some m ∧
        m < I.n ∧ rd (initIN I.n (buildP2 I.n I.L I.R)) m ≤ 6 ∧
        ∀ j, j < m → ¬ rd (initIN I.n (buildP2 I.n I.L I.R)) j ≤ 6 := by
  have hP := shaped_buildP2 I hwf
  have hn : 1 ≤ I.n := hwf.1
  obtain ⟨r, hr, _, _⟩ := peel_ok I.n _ hP (7 * I.n) _ (oinv_init I.n _ hP) (mu_init I.n _)
  have hrev := peel_finalizedSeq _ _ _ r hr
  have hO0 : (initO I.n (buildP2 I.n I.L I.R)).O = [] := rfl
  rw [hO0, List.append_nil] at hrev
  refine ⟨r, hr, by simp [orderer, hr], hrev, ?_⟩
  obtain ⟨y, hy, hy6⟩ := exists_low_indegree I.n hn _ hP
  have hmem : y ∈ seedQ I.n (initIN I.n (buildP2 I.n I.L I.R)) := (mem_seedQ _ _ y).2 ⟨hy, hy6⟩
  cases hseed : seedQ I.n (initIN I.n (buildP2 I.n I.L I.R)) with
  | nil =>
    rw [hseed] at hmem
    exact absurd hmem (List.not_mem_nil y)
  | cons m rest =>
    have hfilter := hseed
    rw [seedQ_eq] at hfilter
    obtain ⟨hm6, hmn, hmin⟩ := head_filter_range I.n _ m rest hfilter
    have hm6' : rd (initIN I.n (buildP2 I.n I.L I.R)) m ≤ 6 := by simpa using hm6
    obtain ⟨fuel, hfuel⟩ : ∃ fuel, 7 * I.n = fuel + 1 := ⟨7 * I.n - 1, by omega⟩
    have hQ : (initO I.n (buildP2 I.n I.L I.R)).Q = m :: rest := hseed
    have hseen : ¬ rd (initO I.n (buildP2 I.n I.L I.R)).SEEN m ≠ 0 := by
      have : rd (initO I.n (buildP2 I.n I.L I.R)).SEEN m = 0 := rd_replicate I.n m 0 hmn
      simp [this]
    have hfin := finalize_eq (buildP2 I.n I.L I.R)
      { initO I.n (buildP2 I.n I.L I.R) with Q := rest } m hm6'
    have hhead : ∃ tl, finalizedSeq (buildP2 I.n I.L I.R) (7 * I.n)
        (initO I.n (buildP2 I.n I.L I.R)) = m :: tl := by
      rw [hfuel, finalizedSeq]
      simp only [hQ, if_neg hseen, hfin]
      exact ⟨_, rfl⟩
    obtain ⟨tl, htl⟩ := hhead
    refine ⟨m, ?_, by rw [htl]; rfl, hmn, hm6', ?_⟩
    · rw [hrev, htl, List.reverse_cons]
      simp
    · intro j hj
      have := hmin j hj
      simpa using this

/-- Witness of C15 on the five-node ring. -/
theorem order_direction_witness :
    WellFormed ring5 ∧
    ∃ r, peel (buildP2 ring5.n ring5.L ring5.R) (7 * ring5.n)
        (initO ring5.n (buildP2 ring5.n ring5.L ring5.R)) = some r ∧
      orderer ring5.n (buildP2 ring5.n ring5.L ring5.R) = some r.O ∧
      r.O = (finalizedSeq (buildP2 ring5.n ring5.L ring5.R) (7 * ring5.n)
        (initO ring5.n (buildP2 ring5.n ring5.L ring5.R))).reverse ∧
      ∃ m, r.O.getLast? = some m ∧
        (finalizedSeq (buildP2 ring5.n ring5.L ring5.R) (7 * ring5.n)
          (initO ring5.n (buildP2 ring5.n ring5.L ring5.R))).head? = some m ∧
        m < ring5.n ∧ rd (initIN ring5.n (buildP2 ring5.n ring5.L ring5.R)) m ≤ 6 ∧
        ∀ j, j < m → ¬ rd (initIN ring5.n (buildP2 ring5.n ring5.L ring5.R)) j ≤ 6 :=
  ⟨by decide, order_direction ring5 (by decide)⟩

/-- C16: on a well-formed instance the peeling loop ends with an empty queue within
`7 * n` pops; the sequence of popped nodes is the sequence of pushed nodes (the seeding
pushes followed by the pushes made inside the loop), it has at most `7 * n` entries, and
however long the loop is allowed to run, no node is pushed more than 7 times. -/
theorem peeling_terminates (I : Instance) (hwf : WellFormed I) :
    (∃ r, peel (buildP2 I.n I.L I.R) (7 * I.n) (initO I.n (buildP2 I.n I.L I.R)) = some r ∧
      r.Q = [] ∧
      poppedSeq (buildP2 I.n I.L I.R) (7 * I.n) (initO I.n (buildP2 I.n I.L I.R))
        = seedQ I.n (initIN I.n (buildP2 I.n I.L I.R))
          ++ pushLog (buildP2 I.n I.L I.R) (7 * I.n) (initO I.n (buildP2 I.n I.L I.R)) ∧
      (poppedSeq (buildP2 I.n I.L I.R) (7 * I.n)
        (initO I.n (buildP2 I.n I.L I.R))).length ≤ 7 * I.n) ∧
    ∀ fuel y, (seedQ I.n (initIN I.n (buildP2 I.n I.L I.R))
      ++ pushLog (buildP2 I.n I.L I.R) fuel (initO I.n (buildP2 I.n I.L I.R))).count y
        ≤ 7 := by
  have hP := shaped_buildP2 I hwf
  have h0 := oinv_init I.n _ hP
  have hcount : ∀ fuel y, (seedQ I.n (initIN I.n (buildP2 I.n I.L I.R))
      ++ pushLog (buildP2 I.n I.L I.R) fuel (initO I.n (buildP2 I.n I.L I.R))).count y
        ≤ 7 := by
    intro fuel y
    rw [List.count_append]
    by_cases hy : y < I.n
    · have h1 := pushLog_count I.n _ hP fuel _ h0 y hy
      have h2 := count_seedQ I.n (initIN I.n (buildP2 I.n I.L I.R)) y
      have e : (initO I.n (buildP2 I.n I.L I.R)).IN = initIN I.n (buildP2 I.n I.L I.R) := rfl
      rw [e] at h1
      omega
    · have e1 : (seedQ I.n (initIN I.n (buildP2 I.n I.L I.R))).count y = 0 :=
        List.count_eq_zero_of_not_mem (fun hc => hy ((mem_seedQ _ _ y).1 hc).1)
      have e2 : (pushLog (buildP2 I.n I.L I.R) fuel
          (initO I.n (buildP2 I.n I.L I.R))).count y = 0 :=
        List.count_eq_zero_of_not_mem (fun hc => hy (pushLog_lt I.n _ hP fuel _ h0 y hc))
      omega
  refine ⟨?_, hcount⟩
  obtain ⟨r, hr, _, hQ⟩ := peel_ok I.n _ hP (7 * I.n) _ h0 (mu_init I.n _)
  have hpop := popped_eq_pushed I.n _ hP (7 * I.n) _ r h0 hr
  have hQ0 : (initO I.n (buildP2 I.n I.L I.R)).Q
      = seedQ I.n (initIN I.n (buildP2 I.n I.L I.R)) := rfl
  rw [hQ0] at hpop
  refine ⟨r, hr, hQ, hpop, ?_⟩
  rw [hpop]
  apply length_le_of_count _ I.n 7
  · intro x hx
    rcases List.mem_append.1 hx with e | e
    · exact ((mem_seedQ _ _ x).1 e).1
    · exact pushLog_lt I.n _ hP _ _ h0 x e
  · intro y _
    exact hcount (7 * I.n) y

/-- Witness of C16 on the five-node ring. -/
theorem peeling_terminates_witness :
    WellFormed ring5 ∧
    ((∃ r, peel (buildP2 ring5.n ring5.L ring5.R) (7 * ring5.n)
        (initO ring5.n (buildP2 ring5.n ring5.L ring5.R)) = some r ∧
      r.Q = [] ∧
      poppedSeq (buildP2 ring5.n ring5.L ring5.R) (7 * ring5.n)
          (initO ring5.n (buildP2 ring5.n ring5.L ring5.R))
        = seedQ ring5.n (initIN ring5.n (buildP2 ring5.n ring5.L ring5.R))
          ++ pushLog (buildP2 ring5.n ring5.L ring5.R) (7 * ring5.n)
            (initO ring5.n (buildP2 ring5.n ring5.L ring5.R)) ∧
      (poppedSeq (buildP2 ring5.n ring5.L ring5.R) (7 * ring5.n)
        (initO ring5.n (buildP2 ring5.n ring5.L ring5.R))).length ≤ 7 * ring5.n) ∧
    ∀ fuel y, (seedQ ring5.n (initIN ring5.n (buildP2 ring5.n ring5.L ring5.R))
      ++ pushLog (buildP2 ring5.n ring5.L ring5.R) fuel
        (initO ring5.n (buildP2 ring5.n ring5.L ring5.R))).count y ≤ 7) :=
  ⟨by decide, peeling_terminates ring5 (by decide)⟩

/-- C17: on a well-formed instance without self-proximity every node `x` occurs exactly
once in the order, so the Colorer processes it once; `COLOR[x]` is `-1` before that
step; and the value `COLOR[x]` holds at the end of that step is still there after the
processing of any number of the later nodes, in particular in the final array. -/
theorem colors_never_reassigned (I : Instance) (hwf : WellFormed I) (hns : NoSelf I) :
    ∃ O COLOR, orderer I.n (buildP2 I.n I.L I.R) = some O ∧ finalColor I = some COLOR ∧
      (∀ x, x < I.n → O.count x = 1) ∧
      ∀ pre x post, O = pre ++ x :: post →
        ∃ s s1, colorLoop (buildP2 I.n I.L I.R) pre (initC I.n) = some s ∧
          rd s.COLOR x = -1 ∧
          colorStep (buildP2 I.n I.L I.R) s x = some s1 ∧
          0 ≤ rd s1.COLOR x ∧
          (∀ later rest, post = later ++ rest →
            ∃ s2, colorLoop (buildP2 I.n I.L I.R) later s1 = some s2 ∧
              rd s2.COLOR x = rd s1.COLOR x) ∧
          rd COLOR x = rd s1.COLOR x := by
  have hP := shaped_buildP2 I hwf
  obtain ⟨O, sf, hO, hgood, hsf, _, hfin⟩ := pipeline I hwf hns
  refine ⟨O, sf.COLOR, hO, hfin, ?_, ?_⟩
  · intro x hx
    exact List.count_eq_one_of_mem hgood.nodup ((hgood.mem x).2 hx)
  intro pre x post hsplit
  obtain ⟨s, hs, hinv⟩ := color_upto I.n _ hP O hgood (noSelf_nbrs I hns) pre (x :: post)
    hsplit
  have hx : x < I.n := (hgood.mem x).1 (by rw [hsplit]; simp)
  have hnd := hgood.nodup
  rw [hsplit] at hnd
  have hxpre : x ∉ pre := fun hc =>
    (List.nodup_append.1 hnd).2.2 hc (List.mem_cons_self _ _)
  have hxpost : x ∉ post := (List.nodup_cons.1 (List.nodup_append.1 hnd).2.1).1
  obtain ⟨c, s1, p⟩ := color_step I.n _ hP pre s x hinv hx hxpre (noSelf_nbrs I hns x hx)
    (hgood.late pre x post hsplit)
  have hrest : colorLoop (buildP2 I.n I.L I.R) post s1 = some sf := by
    have h1 := hsf
    rw [hsplit, colorLoop_append, hs] at h1
    simp only [Option.bind, colorLoop, p.run] at h1
    exact h1
  refine ⟨s, s1, hs, hinv.uncol x hx hxpre, p.run, ?_, ?_, ?_⟩
  · rw [p.color]
    exact Int.natCast_nonneg c
  · intro later rest hpost
    have h2 := hrest
    rw [hpost, colorLoop_append] at h2
    cases hl : colorLoop (buildP2 I.n I.L I.R) later s1 with
    | none =>
      rw [hl] at h2
      cases h2
    | some s2 =>
      refine ⟨s2, rfl, ?_⟩
      apply colorLoop_frame _ later s1 s2 x hl
      intro hc
      exact hxpost (by rw [hpost]; exact List.mem_append_left _ hc)
  · exact colorLoop_frame _ post s1 sf x hrest hxpost

/-- Witness of C17 on the five-node ring. -/
theorem colors_never_reassigned_witness :
    WellFormed ring5 ∧ NoSelf ring5 ∧
    ∃ O COLOR, orderer ring5.n (buildP2 ring5.n ring5.L ring5.R) = some O ∧
      finalColor ring5 = some COLOR ∧
      (∀ x, x < ring5.n → O.count x = 1) ∧
      ∀ pre x post, O = pre ++ x :: post →
        ∃ s s1, colorLoop (buildP2 ring5.n ring5.L ring5.R) pre (initC ring5.n) = some s ∧
          rd s.COLOR x = -1 ∧
          colorStep (buildP2 ring5.n ring5.L ring5.R) s x = some s1 ∧
          0 ≤ rd s1.COLOR x ∧
          (∀ later rest, post = later ++ rest →
            ∃ s2, colorLoop (buildP2 ring5.n ring5.L ring5.R) later s1 = some s2 ∧
              rd s2.COLOR x = rd s1.COLOR x) ∧
          rd COLOR x = rd s1.COLOR x :=
  ⟨by decide, by decide, colors_never_reassigned ring5 (by decide) (by decide)⟩

/-- C19: on a well-formed instance the initial in-degrees sum to exactly `6 * n`, so
some node has initial in-degree at most 6 and the work queue is not empty when the
peeling starts. -/
theorem incidence_count (I : Instance) (hwf : WellFormed I) :
    (initIN I.n (buildP2 I.n I.L I.R)).sum = 6 * (I.n : Int) ∧
    (initIN I.n (buildP2 I.n I.L I.R)).length = I.n ∧
    (∃ y, y < I.n ∧ rd (initIN I.n (buildP2 I.n I.L I.R)) y ≤ 6) ∧
    seedQ I.n (initIN I.n (buildP2 I.n I.L I.R)) ≠ [] ∧
    (initO I.n (buildP2 I.n I.L I.R)).Q ≠ [] := by
  have hP := shaped_buildP2 I hwf
  obtain ⟨y, hy, hy6⟩ := exists_low_indegree I.n hwf.1 _ hP
  have hne : seedQ I.n (initIN I.n (buildP2 I.n I.L I.R)) ≠ [] := by
    intro hc
    have := (mem_seedQ I.n _ y).2 ⟨hy, hy6⟩
    rw [hc] at this
    exact absurd this (List.not_mem_nil y)
  exact ⟨sum_initIN I.n _ hP, length_initIN _ _ hP.lt, ⟨y, hy, hy6⟩, hne, hne⟩

/-- Witness of C19 on the five-node ring. -/
theorem incidence_count_witness :
    WellFormed ring5 ∧
    ((initIN ring5.n (buildP2 ring5.n ring5.L ring5.R)).sum = 6 * (ring5.n : Int) ∧
    (initIN ring5.n (buildP2 ring5.n ring5.L ring5.R)).length = ring5.n ∧
    (∃ y, y < ring5.n ∧ rd (initIN ring5.n (buildP2 ring5.n ring5.L ring5.R)) y ≤ 6) ∧
    seedQ ring5.n (initIN ring5.n (buildP2 ring5.n ring5.L ring5.R)) ≠ [] ∧
    (initO ring5.n (buildP2 ring5.n ring5.L ring5.R)).Q ≠ []) :=
  ⟨by decide, incidence_count ring5 (by decide)⟩

end MascotMaze

namespace WinAsSecond

/-! ## Pushing onto an adjacency list -/

end WinAsSecond
